import Mathlib

/-!
Verification of the lovable-clone core against its specification.

This file shallowly embeds the algorithmic core of the repository:

* the SSE frame decoder (`lovable-ui/lib/client/sse.ts`),
* the generation-session state machine (`lovable-ui/hooks/useGenerationSession.ts`),
* the unified-diff engine, edit-proposal normalizer and batched apply
  orchestration (`lovable-ui/app/api/sandbox/[sandboxId]/edit/route.ts`),
* the checkpoint store (`lovable-ui/lib/client/sandbox-checkpoints.ts`).

JavaScript strings are represented as `List Char` (`Str` below); JavaScript
values whose loose type matters (`unknown` fields, `string | null`,
falsy-`""` tests) are represented with small explicit types so that the
truthiness tests of the source are modelled exactly.
-/

set_option autoImplicit false

namespace Lovable

deriving instance DecidableEq for Except

/-- JavaScript strings, represented as lists of characters. -/
abbrev Str := List Char

/-- Shorthand turning a Lean string literal into a `Str`. -/
def lit (s : String) : Str := s.data

/-- The characters the ECMAScript `trim`/`trimStart` family strips
(whitespace plus line terminators, ECMA-262 `TrimString`). -/
def jsWhitespace (c : Char) : Bool :=
  [' ', '\t', '\n', '\r', '\u000b', '\u000c', '\u00A0', '\u1680',
   '\u2028', '\u2029', '\u202F', '\u205F', '\u3000', '\uFEFF'].contains c
  || decide ('\u2000' ≤ c ∧ c ≤ '\u200A')

/-- JS `String.prototype.trimStart`. -/
def jsTrimStart (s : Str) : Str := s.dropWhile jsWhitespace

/-- JS `String.prototype.trim` (strip both ends). -/
def jsTrim (s : Str) : Str :=
  ((s.dropWhile jsWhitespace).reverse.dropWhile jsWhitespace).reverse

/-- JS `String.prototype.includes`: substring containment. -/
def jsIncludes (hay pat : Str) : Bool :=
  if pat.isPrefixOf hay then true
  else
    match hay with
    | [] => false
    | _ :: t => jsIncludes t pat

/-- JS `replace(/\r\n/g, "\n")`: global leftmost-first replacement of
CRLF pairs by a single LF. -/
def replaceCRLF : Str → Str
  | '\r' :: '\n' :: rest => '\n' :: replaceCRLF rest
  | c :: rest => c :: replaceCRLF rest
  | [] => []

/-- JS `String.prototype.split(sep)` for a single-character separator:
`n` occurrences of the separator yield `n + 1` (possibly empty) fields. -/
def splitOnChar (sep : Char) : Str → List Str
  | [] => [[]]
  | c :: rest =>
    if c = sep then [] :: splitOnChar sep rest
    else
      match splitOnChar sep rest with
      | s :: ss => (c :: s) :: ss
      | [] => [[c]]

/-- JS `Array.prototype.join(sep)` for a single-character separator. -/
def joinWith (sep : Char) : List Str → Str
  | [] => []
  | [s] => s
  | s :: rest => s ++ sep :: joinWith sep rest

/-! ## SSE frame decoder (`lovable-ui/lib/client/sse.ts`) -/

/-- Parser state of the SSE decoder (`SseParserState`). -/
structure SseParserState where
  buffer : Str
deriving DecidableEq, Repr

/-- `createSseParserState()`. -/
def createSseParserState : SseParserState := ⟨[]⟩

/-- `normalizeChunk`: normalize CRLF in one incoming chunk
(`chunk.replace(/\r\n/g, "\n")`). -/
def normalizeChunk (chunk : Str) : Str := replaceCRLF chunk

/-- One pass of the `while` loop of `consumeSseDataFrames`: repeatedly
locate the first `"\n\n"` delimiter (`buffer.indexOf("\n\n")`), cut the
raw event before it off the buffer, and return the raw events in order
together with the remaining (delimiter-free) buffer.  `cur` is the
reversed prefix of the current, not yet delimited event. -/
def scanRawEvents (cur : Str) : Str → List Str × Str
  | '\n' :: '\n' :: rest =>
    let (evs, rem) := scanRawEvents [] rest
    (cur.reverse :: evs, rem)
  | c :: rest => scanRawEvents (c :: cur) rest
  | [] => ([], cur.reverse)

/-- Data-line extraction applied to one raw event: keep the lines that
start with `"data:"`, strip the marker and leading whitespace, and join
the survivors with `"\n"`; an event without data lines yields no frame. -/
def eventDataFrames (rawEvent : Str) : List Str :=
  let dataLines :=
    ((splitOnChar '\n' rawEvent).filter
        (fun line => (lit "data:").isPrefixOf line)).map
      (fun line => jsTrimStart (line.drop 5))
  if dataLines.isEmpty then [] else [joinWith '\n' dataLines]

/-- `consumeSseDataFrames(state, chunk)`: append the normalized chunk to
the buffer, extract every complete (double-newline-delimited) event, and
return its data frames in order; the mutated state is returned
explicitly. -/
def consumeSseDataFrames (state : SseParserState) (chunk : Str) :
    List Str × SseParserState :=
  let (rawEvents, rem) := scanRawEvents [] (state.buffer ++ normalizeChunk chunk)
  (rawEvents.foldr (fun ev acc => eventDataFrames ev ++ acc) [], ⟨rem⟩)

/-- `flushSseDataFrames(state)`: salvage a final delimiter-less frame
from a non-blank trailing buffer, then clear the buffer. -/
def flushSseDataFrames (state : SseParserState) : List Str × SseParserState :=
  if (jsTrim state.buffer).isEmpty then ([], ⟨[]⟩)
  else
    let dataLines :=
      ((splitOnChar '\n' state.buffer).filter
          (fun line => (lit "data:").isPrefixOf line)).map
        (fun line => jsTrimStart (line.drop 5))
    (if dataLines.isEmpty then [] else [joinWith '\n' dataLines], ⟨[]⟩)

/-- Feed a list of chunks through `consumeSseDataFrames` one by one and
finish with `flushSseDataFrames`, collecting every decoded frame in
order — the exact consumption pattern of the stream loop in
`useGenerationSession.start`. -/
def decodeChunks (chunks : List Str) : List Str :=
  let step := chunks.foldl
    (fun (acc : List Str × SseParserState) chunk =>
      let (frames, st) := consumeSseDataFrames acc.2 chunk
      (acc.1 ++ frames, st))
    ([], createSseParserState)
  let (frames, _) := flushSseDataFrames step.2
  step.1 ++ frames

/-! ## Generation session stages (`lovable-ui/hooks/useGenerationSession.ts`) -/

/-- `GenerationStage`. -/
inductive GenerationStage where
  | queued
  | creating_sandbox
  | generating_code
  | installing_deps
  | starting_preview
  | ready
deriving DecidableEq, Repr

/-- Position of a stage in the fixed pipeline ordering
`queued < creating_sandbox < generating_code < installing_deps <
starting_preview < ready`. -/
def stageRank : GenerationStage → Nat
  | .queued => 0
  | .creating_sandbox => 1
  | .generating_code => 2
  | .installing_deps => 3
  | .starting_preview => 4
  | .ready => 5

/-- JS `String.prototype.toLowerCase`, modelled for the ASCII range
(the keyword phrases matched against are all ASCII). -/
def jsToLower (s : Str) : Str := s.map Char.toLower

/-- `inferStageFromProgress(message, current)`: case-insensitive keyword
classification of a free-text progress line, checked group by group in
pipeline order with early return; an unmatched message keeps `current`. -/
def inferStageFromProgress (message : Str) (current : GenerationStage) :
    GenerationStage :=
  let text := jsToLower message
  if jsIncludes text (lit "creating new daytona sandbox")
      || jsIncludes text (lit "using existing sandbox")
      || jsIncludes text (lit "sandbox created")
      || jsIncludes text (lit "connected to sandbox") then
    .creating_sandbox
  else if jsIncludes text (lit "running vercel ai gateway generation")
      || jsIncludes text (lit "parsing generated code")
      || jsIncludes text (lit "writing")
      || jsIncludes text (lit "generation output") then
    .generating_code
  else if jsIncludes text (lit "installing project dependencies")
      || jsIncludes text (lit "dependencies installed")
      || jsIncludes text (lit "npm install") then
    .installing_deps
  else if jsIncludes text (lit "starting development server")
      || jsIncludes text (lit "waiting for server to start")
      || jsIncludes text (lit "getting preview url")
      || jsIncludes text (lit "preview url:") then
    .starting_preview
  else current

/-- The current-stage-independent part of `inferStageFromProgress`: the
stage of the first keyword group the message matches, if any. -/
def classifyProgress (message : Str) : Option GenerationStage :=
  let text := jsToLower message
  if jsIncludes text (lit "creating new daytona sandbox")
      || jsIncludes text (lit "using existing sandbox")
      || jsIncludes text (lit "sandbox created")
      || jsIncludes text (lit "connected to sandbox") then
    some .creating_sandbox
  else if jsIncludes text (lit "running vercel ai gateway generation")
      || jsIncludes text (lit "parsing generated code")
      || jsIncludes text (lit "writing")
      || jsIncludes text (lit "generation output") then
    some .generating_code
  else if jsIncludes text (lit "installing project dependencies")
      || jsIncludes text (lit "dependencies installed")
      || jsIncludes text (lit "npm install") then
    some .installing_deps
  else if jsIncludes text (lit "starting development server")
      || jsIncludes text (lit "waiting for server to start")
      || jsIncludes text (lit "getting preview url")
      || jsIncludes text (lit "preview url:") then
    some .starting_preview
  else none

/-- The stage sequence derived by feeding progress messages one by one
through `inferStageFromProgress`, as the `progress` branch of the stream
loop does (`stage: inferStageFromProgress(parsedEvent.message, prev.stage)`). -/
def stageSeq (current : GenerationStage) : List Str → List GenerationStage
  | [] => []
  | m :: rest =>
    let next := inferStageFromProgress m current
    next :: stageSeq next rest

/-- A stage list is non-decreasing under the fixed pipeline ordering. -/
def ranksNonDecreasing : List GenerationStage → Bool
  | a :: b :: rest => decide (stageRank a ≤ stageRank b) && ranksNonDecreasing (b :: rest)
  | _ => true

/-- Whether a stage is at most the head of a stage list (vacuously true
for the empty list). -/
def rankLeHead (s : GenerationStage) : List GenerationStage → Bool
  | [] => true
  | t :: _ => decide (stageRank s ≤ stageRank t)

/-! ## Diff engine (`app/api/sandbox/[sandboxId]/edit/route.ts`) -/

/-- Decimal rendering of a line number for the hunk header. -/
def natStr (n : Nat) : Str := (toString n).data

/-- `DIFF_CONTEXT_LINES`. -/
def DIFF_CONTEXT_LINES : Nat := 3

/-- `MAX_DIFF_LINES`. -/
def MAX_DIFF_LINES : Nat := 220

/-- Result shape of `createUnifiedDiff` / `createDeletedFileDiff`. -/
structure DiffInfo where
  changed : Bool
  additions : Nat
  deletions : Nat
  diff : Str
deriving DecidableEq, Repr

/-- `normalizeLineEndings(value)`: `value.replace(/\r\n/g, "\n")`. -/
def normalizeLineEndings (s : Str) : Str := replaceCRLF s

/-- `normalizeLineEndings(content).split("\n")`. -/
def splitLines (s : Str) : List Str := splitOnChar '\n' (normalizeLineEndings s)

/-- Length of the longest common prefix of two line lists — the value of
`start` computed by the first `while` loop of `createUnifiedDiff`. -/
def lcpLen : List Str → List Str → Nat
  | a :: as, b :: bs => if a = b then lcpLen as bs + 1 else 0
  | _, _ => 0

/-- Length of the common suffix scanned by the second `while` loop of
`createUnifiedDiff` (both cursors stay at or after `start`, so the
suffix is taken of the lists with the common prefix dropped). -/
def commonSuffixLen (l1 l2 : List Str) : Nat := lcpLen l1.reverse l2.reverse

/-- `trimDiffLines(lines)`: cap a rendered diff at `MAX_DIFF_LINES`
lines, keeping the first 60% and the tail and splicing in a marker
(`keepStart = Math.floor(220 * 0.6) = 132`). -/
def trimDiffLines (lines : List Str) : List Str :=
  if lines.length ≤ MAX_DIFF_LINES then lines
  else
    let keepStart := 132
    let keepEnd := MAX_DIFF_LINES - keepStart - 1
    lines.take keepStart ++ [lit "... diff truncated ..."] ++
      lines.drop (max (lines.length - keepEnd) keepStart)

/-- `createUnifiedDiff(filePath, previousContent, nextContent)`:
identical contents short-circuit to an unchanged result; otherwise trim
the longest common prefix and (non-overlapping) suffix, emit the removed
and added region with three context lines each side, and size-cap the
rendered hunk. -/
def createUnifiedDiff (filePath previousContent nextContent : Str) : DiffInfo :=
  let beforeLines := splitLines previousContent
  let afterLines := splitLines nextContent
  if previousContent = nextContent then
    { changed := false, additions := 0, deletions := 0,
      diff := lit "--- a/" ++ filePath ++ lit "\n" ++ lit "+++ b/" ++ filePath ++
        lit "\n" ++ lit "(No changes)" }
  else
    let start := lcpLen beforeLines afterLines
    let ksuf := commonSuffixLen (beforeLines.drop start) (afterLines.drop start)
    let removed := (beforeLines.drop start).take (beforeLines.length - ksuf - start)
    let added := (afterLines.drop start).take (afterLines.length - ksuf - start)
    let preStart := start - DIFF_CONTEXT_LINES
    let preContext := (beforeLines.drop preStart).take (start - preStart)
    let postStart := max (beforeLines.length - ksuf) start
    let postContext := (beforeLines.drop postStart).take DIFF_CONTEXT_LINES
    let hunkOldStart := preStart + 1
    let hunkNewStart := preStart + 1
    let hunkOldCount := preContext.length + removed.length + postContext.length
    let hunkNewCount := preContext.length + added.length + postContext.length
    let diffLines :=
      [lit "--- a/" ++ filePath, lit "+++ b/" ++ filePath,
       lit "@@ -" ++ natStr hunkOldStart ++ lit "," ++ natStr hunkOldCount ++
         lit " +" ++ natStr hunkNewStart ++ lit "," ++ natStr hunkNewCount ++
         lit " @@"]
      ++ preContext.map (fun line => ' ' :: line)
      ++ removed.map (fun line => '-' :: line)
      ++ added.map (fun line => '+' :: line)
      ++ postContext.map (fun line => ' ' :: line)
    { changed := true, additions := added.length, deletions := removed.length,
      diff := joinWith '\n' (trimDiffLines diffLines) }

/-- `createDeletedFileDiff(filePath, previousContent)`. -/
def createDeletedFileDiff (filePath previousContent : Str) : DiffInfo :=
  let beforeLines := splitLines previousContent
  let diffLines :=
    [lit "--- a/" ++ filePath, lit "+++ /dev/null",
     lit "@@ -1," ++ natStr beforeLines.length ++ lit " +0,0 @@"]
    ++ beforeLines.map (fun line => '-' :: line)
  { changed := true, additions := 0, deletions := beforeLines.length,
    diff := joinWith '\n' (trimDiffLines diffLines) }

/-! ## Path normalization (`normalizeRelativeSandboxPath` and its use of
Node's `path.posix.normalize`) -/

/-- The `".."` path segment. -/
def dotdot : Str := lit ".."

/-- Segment resolution of Node's `path.posix.normalize`
(`normalizeString(path, allowAboveRoot, "/")`): empty and `"."` segments
are dropped, `".."` pops the last kept segment unless the kept tail is
itself `".."`, and an unmatched `".."` is kept only when
`allowAboveRoot` (i.e. for relative paths).  `acc` holds the kept
segments in reverse. -/
def normSegs (allowAboveRoot : Bool) (acc : List Str) : List Str → List Str
  | [] => acc.reverse
  | seg :: rest =>
    if seg = [] ∨ seg = lit "." then normSegs allowAboveRoot acc rest
    else if seg = dotdot then
      if acc.head? = some dotdot then
        normSegs allowAboveRoot (if allowAboveRoot then dotdot :: acc else acc) rest
      else if acc = [] then
        normSegs allowAboveRoot (if allowAboveRoot then [dotdot] else []) rest
      else normSegs allowAboveRoot acc.tail rest
    else normSegs allowAboveRoot (seg :: acc) rest

/-- Node `path.posix.normalize(p)`: resolve `"."`/`".."`/repeated-slash
segments, preserving a trailing slash and whether the path is absolute;
an empty resolution renders as `"."` (resp. `"./"`, `"/"`). -/
def posixNormalize (p : Str) : Str :=
  if p = [] then lit "."
  else
    let isAbsolute := p.head? = some '/'
    let trailingSeparator := p.getLast? = some '/'
    let segs := normSegs (!isAbsolute) [] (splitOnChar '/' p)
    let res := joinWith '/' segs
    if res = [] then
      if isAbsolute then lit "/"
      else if trailingSeparator then lit "./" else lit "."
    else
      let res2 := if trailingSeparator then res ++ ['/'] else res
      if isAbsolute then '/' :: res2 else res2

/-- `replace(/^\.\/+/, "")`: strip one leading `"."` followed by one or
more slashes. -/
def stripLeadingDotSlash (s : Str) : Str :=
  match s with
  | c1 :: c2 :: rest =>
    if c1 = '.' ∧ c2 = '/' then rest.dropWhile (fun c => c = '/') else s
  | _ => s

/-- `normalizeRelativeSandboxPath(input)`: the path trust boundary.
Rejects null bytes, absolute paths and upward traversal; maps
backslashes to slashes, trims, posix-normalizes and strips a leading
`"./"`; returns `""` for blank or `"."`-equivalent inputs.  Thrown
errors are modelled as `Except.error`. -/
def normalizeRelativeSandboxPath (input : Str) : Except Str Str :=
  if input.contains '\x00' then .error (lit "Path contains invalid characters")
  else
    let normalizedInput := jsTrim (input.map (fun c => if c = '\\' then '/' else c))
    if normalizedInput = [] then .ok []
    else if normalizedInput.head? = some '/' then
      .error (lit "Absolute paths are not allowed")
    else
      let normalized := stripLeadingDotSlash (posixNormalize normalizedInput)
      if normalized = dotdot ∨ (dotdot ++ ['/']).isPrefixOf normalized then
        .error (lit "Path traversal is not allowed")
      else .ok (if normalized = lit "." then [] else normalized)

/-! ## Edit proposal normalizer (`normalizeCandidateEdits`) -/

/-- A JavaScript value as far as the candidate checks observe it:
a string, a boolean, or anything else. -/
inductive JsVal where
  | str (s : Str)
  | bool (b : Bool)
  | other
deriving DecidableEq, Repr

/-- `AIEditCandidate`: the untrusted `{path?, content?, delete?}` shape
coming back from the model. -/
structure AIEditCandidate where
  path : Option JsVal
  content : Option JsVal
  delete : Option JsVal
deriving DecidableEq, Repr

/-- `NormalizedEdit`: `{path, delete: true}` or `{path, content}`. -/
inductive NormalizedEdit where
  | del (path : Str)
  | write (path : Str) (content : Str)
deriving DecidableEq, Repr

/-- The `path` field of a normalized edit. -/
def NormalizedEdit.pathOf : NormalizedEdit → Str
  | .del p => p
  | .write p _ => p

/-- `MAX_APPLY_EDITS`. -/
def MAX_APPLY_EDITS : Nat := 20

/-- `typeof edit.path === "string" ? edit.path : ""`. -/
def candRawPath (c : AIEditCandidate) : Str :=
  match c.path with
  | some (.str s) => s
  | _ => []

/-- `typeof edit.content === "string"`. -/
def candHasStringContent (c : AIEditCandidate) : Bool :=
  match c.content with
  | some (.str _) => true
  | _ => false

/-- `edit.delete === true`. -/
def candIsDelete (c : AIEditCandidate) : Bool :=
  match c.delete with
  | some (.bool true) => true
  | _ => false

/-- The loop body of `normalizeCandidateEdits`, with the `break` at
`MAX_APPLY_EDITS`, the candidate shape checks, the `try`/`catch` around
`normalizeRelativeSandboxPath` and the `seenPaths` dedup set made
explicit.  Returns the accumulated output list and the seen-path set. -/
def normalizeLoop (acc : List NormalizedEdit) (seen : List Str) :
    List AIEditCandidate → List NormalizedEdit × List Str
  | [] => (acc, seen)
  | c :: rest =>
    if MAX_APPLY_EDITS ≤ acc.length then (acc, seen)
    else
      let rawPath := candRawPath c
      if rawPath = [] ∨ (candHasStringContent c = false ∧ candIsDelete c = false) then
        normalizeLoop acc seen rest
      else
        match normalizeRelativeSandboxPath rawPath with
        | .error _ => normalizeLoop acc seen rest
        | .ok normalizedPath =>
          if normalizedPath = [] ∨ seen.contains normalizedPath then
            normalizeLoop acc seen rest
          else if candIsDelete c then
            normalizeLoop (acc ++ [.del normalizedPath]) (normalizedPath :: seen) rest
          else
            normalizeLoop
              (acc ++ [.write normalizedPath
                (match c.content with | some (.str s) => s | _ => [])])
              (normalizedPath :: seen) rest

/-- `normalizeCandidateEdits(candidateEdits)`. -/
def normalizeCandidateEdits (candidateEdits : List AIEditCandidate) :
    List NormalizedEdit :=
  (normalizeLoop [] [] candidateEdits).1

/-- Well-formedness of a kept segment: non-empty, not `"."`, free of
slashes and null bytes. -/
def SegWF (s : Str) : Prop :=
  s ≠ [] ∧ s ≠ lit "." ∧ '/' ∉ s ∧ '\x00' ∉ s

/-- Accumulator shape: kept names first (in reverse), then a block of
`".."` segments. -/
def AccShape (acc : List Str) : Prop :=
  ∃ nr k, acc = nr ++ List.replicate k dotdot ∧ dotdot ∉ nr

/-- The safety properties the normalizer guarantees for every path it
emits: no `".."` traversal segment, not absolute, no null byte. -/
def SafeEditPath (p : Str) : Prop :=
  dotdot ∉ splitOnChar '/' p ∧ p.head? ≠ some '/' ∧ '\x00' ∉ p

/-- The pipeline a single candidate goes through, up to (but excluding)
the duplicate check: its normalized path if the candidate is
individually acceptable. -/
def candNormalizedPath (c : AIEditCandidate) : Option Str :=
  let rawPath := candRawPath c
  if rawPath = [] ∨ (candHasStringContent c = false ∧ candIsDelete c = false) then
    none
  else
    match normalizeRelativeSandboxPath rawPath with
    | .error _ => none
    | .ok p => if p = [] then none else some p

/-! ## Edit orchestration: no-op filtering and batched apply
(`POST` handler of `app/api/sandbox/[sandboxId]/edit/route.ts`) -/

/-- One per-edit preview row (`FileEditPreview`). -/
structure FileEditPreview where
  path : Str
  additions : Nat
  deletions : Nat
  changed : Bool
  isNewFile : Bool
  isDeleted : Bool
  diff : Str
deriving DecidableEq, Repr

/-- The preview/no-op-filter loop (route lines 590–621): for each
normalized edit, read the current remote content (`none` = file does not
exist), drop deletions of missing files, diff the rest, and keep an edit
as effective when it is a deletion, has a changed diff, or creates a new
file.  `remote` abstracts `readProjectFile`. -/
def buildPlan (remote : Str → Option Str) :
    List NormalizedEdit → List FileEditPreview × List NormalizedEdit
  | [] => ([], [])
  | e :: rest =>
    let previousContentOrNull := remote e.pathOf
    let isDelete : Bool := match e with | .del _ => true | .write _ _ => false
    if isDelete && previousContentOrNull.isNone then buildPlan remote rest
    else
      let previousContent := previousContentOrNull.getD []
      let isNewFile : Bool := previousContentOrNull.isNone && !isDelete
      let diffInfo := match e with
        | .del p => createDeletedFileDiff p previousContent
        | .write p c => createUnifiedDiff p previousContent c
      let preview : FileEditPreview :=
        { path := e.pathOf, additions := diffInfo.additions,
          deletions := diffInfo.deletions,
          changed := diffInfo.changed || isNewFile,
          isNewFile := isNewFile, isDeleted := isDelete,
          diff := diffInfo.diff }
      let next := buildPlan remote rest
      (preview :: next.1,
        if isDelete || diffInfo.changed || isNewFile then e :: next.2
        else next.2)

/-- Whether one edit survives the no-op filter (the condition guarding
`effectiveEdits.push`, combined with the early `continue` for deletions
of missing files). -/
def keepEdit (remote : Str → Option Str) (e : NormalizedEdit) : Bool :=
  let previousContentOrNull := remote e.pathOf
  let isDelete : Bool := match e with | .del _ => true | .write _ _ => false
  if isDelete && previousContentOrNull.isNone then false
  else
    let previousContent := previousContentOrNull.getD []
    let isNewFile : Bool := previousContentOrNull.isNone && !isDelete
    let diffInfo := match e with
      | .del p => createDeletedFileDiff p previousContent
      | .write p c => createUnifiedDiff p previousContent c
    isDelete || diffInfo.changed || isNewFile

/-- One entry of the structured failure list (`{path, reason}`). -/
structure FailedEntry where
  path : Str
  reason : Str
deriving DecidableEq, Repr

/-- The success payload of an apply-mode response (route lines 667–681):
the applied path list, the structured failure list and the previews. -/
structure ApplyResponse where
  applied : List Str
  failed : List FailedEntry
  previews : List FileEditPreview
deriving DecidableEq, Repr

/-- Whether an abstracted write/delete outcome succeeded. -/
def outcomeOk : Except Str Unit → Bool
  | .ok _ => true
  | .error _ => false

/-- `error?.message || "apply failed"`. -/
def failReason : Except Str Unit → Str
  | .ok _ => []
  | .error msg => if msg = [] then lit "apply failed" else msg

/-- The apply loop (route lines 644–661): attempt every effective edit
independently, collecting applied paths and `{path, reason}` failures;
`fs` abstracts the outcome of `writeProjectFile`/`deleteProjectFile`. -/
def applyLoop (fs : NormalizedEdit → Except Str Unit) :
    List NormalizedEdit → List Str × List FailedEntry
  | [] => ([], [])
  | e :: rest =>
    let next := applyLoop fs rest
    match fs e with
    | .ok _ => (e.pathOf :: next.1, next.2)
    | .error _ => (next.1, ⟨e.pathOf, failReason (fs e)⟩ :: next.2)

/-- The apply tail of the handler (lines 644–681): run the batch, then
return a bare 500 error when nothing was applied, else the structured
`{applied, failed, previews}` response. -/
def applyPhase (fs : NormalizedEdit → Except Str Unit)
    (effectiveEdits : List NormalizedEdit) (previews : List FileEditPreview) :
    Except Str ApplyResponse :=
  let result := applyLoop fs effectiveEdits
  if result.1.isEmpty then .error (lit "No edits were applied")
  else .ok ⟨result.1, result.2, previews⟩

/-- Apply-mode tail of the `POST` handler from the point where the
normalized edits are known (route lines 583–681): reject an empty
normalized set, build previews and drop no-ops, reject an empty
effective set, then run the batch apply. -/
def postApplyMode (remote : Str → Option Str)
    (fs : NormalizedEdit → Except Str Unit)
    (normalizedEdits : List NormalizedEdit) : Except Str ApplyResponse :=
  if normalizedEdits.isEmpty then
    .error (lit "Model did not return any applicable file edits")
  else
    let plan := buildPlan remote normalizedEdits
    if plan.2.isEmpty then
      .error (lit "No file changes detected from instruction")
    else applyPhase fs plan.2 plan.1

/-! ## Generation session state (`useGenerationSession.ts`) -/

/-- `GenerationLifecycle`. -/
inductive GenerationLifecycle where
  | idle
  | requesting
  | streaming
  | provisioning_preview
  | ready
  | failed
  | canceled
deriving DecidableEq, Repr

/-- A decoded generation event as the stream loop distinguishes it
(`RawGenerationEvent` after the `typeof parsedEvent.type` check). -/
inductive GenEvent where
  | errorEv (message : Option Str)
  | completeEv (previewUrl : Option Str) (sandboxId : Option Str)
  | progressEv (message : Option Str)
  | otherEv (tag : Str)
deriving DecidableEq, Repr

/-- `GenerationSessionState`. -/
structure SessionState where
  messages : List GenEvent
  previewUrl : Option Str
  sandboxId : Option Str
  lifecycle : GenerationLifecycle
  stage : GenerationStage
  error : Option Str
  lastProgress : Option Str
  parseWarnings : Nat
deriving DecidableEq, Repr

/-- `INITIAL_STATE`. -/
def INITIAL_STATE : SessionState :=
  { messages := [], previewUrl := none, sandboxId := none,
    lifecycle := .idle, stage := .queued, error := none,
    lastProgress := none, parseWarnings := 0 }

/-- JS truthiness of a `string | null | undefined` value: `null`,
`undefined` and `""` are falsy. -/
def jsTruthyStr : Option Str → Bool
  | some s => !s.isEmpty
  | none => false

/-- `a || b` for a possibly-null string `a` and a string `b`. -/
def jsOrStr (a : Option Str) (b : Str) : Str :=
  match a with
  | some s => if s.isEmpty then b else s
  | none => b

/-- `a || b` for two possibly-null strings (`parsedEvent.previewUrl ||
prev.previewUrl`). -/
def jsOrOpt (a b : Option Str) : Option Str :=
  if jsTruthyStr a then a else b

/-- Processing of one decoded event inside the stream loop
(`useGenerationSession.start`, lines 246–283).  The returned `Bool` is
`true` when the handler executes `return` (the `error` event), which
ends the run. -/
def applyGenerationEvent (e : GenEvent) (s : SessionState) :
    SessionState × Bool :=
  match e with
  | .errorEv m =>
    let s2 := { s with
      lifecycle := GenerationLifecycle.failed
      error := some (jsOrStr m (lit "Generation failed unexpectedly")) }
    ({ s2 with messages := s2.messages ++ [e] }, true)
  | .completeEv url sid =>
    ({ s with
        previewUrl := jsOrOpt url s.previewUrl
        sandboxId := jsOrOpt sid s.sandboxId
        lifecycle := GenerationLifecycle.provisioning_preview
        stage := GenerationStage.starting_preview }, false)
  | .progressEv m =>
    let s2 :=
      if jsTruthyStr m then
        { s with
          lastProgress := m
          stage := inferStageFromProgress (m.getD []) s.stage }
      else s
    ({ s2 with messages := s2.messages ++ [e] }, false)
  | .otherEv _ =>
    ({ s with messages := s.messages ++ [e] }, false)

/-- The messages of the stream-end finalizer
(`useGenerationSession.start`, lines 328–346). -/
def doneNoPreviewMsg : Str := lit "Generation finished but preview URL was not returned"

/-- See `doneNoPreviewMsg`. -/
def endedEarlyMsg : Str := lit "Generation stream ended before preview was ready"

/-- The stream-end state update (`setState` at lines 328–346): a
no-op for already `failed`/`canceled` sessions, otherwise `ready` with
stage `ready` when a preview URL was recorded, else `failed` with
`prev.error || (receivedDone ? doneNoPreviewMsg : endedEarlyMsg)`. -/
def finalizeOnStreamEnd (receivedDone : Bool) (prev : SessionState) :
    SessionState :=
  if prev.lifecycle = .failed ∨ prev.lifecycle = .canceled then prev
  else
    let hasPreview := jsTruthyStr prev.previewUrl
    { prev with
      lifecycle := if hasPreview then .ready else .failed,
      stage := if hasPreview then .ready else prev.stage,
      error :=
        if hasPreview then prev.error
        else some (jsOrStr prev.error
          (if receivedDone then doneNoPreviewMsg else endedEarlyMsg)) }

/-! ## Superseded-run interleaving model for `start()`

`start()` is an async function; each `await` is a point where a step of
another run (or a new `start()`) can interleave.  A run is modelled by a
program counter over the suspension points of `start`:
`awaitingFetch` (before the `await fetch` resolves, token check at line
191), `reading` (inside the `while` read loop), `done` (returned).
`startNew` models lines 170–189 (abort the in-flight controller, reset
state, allocate the next request token); `fetchResolves` models the
resume at line 191 (the only `requestId !== requestIdRef.current`
check); `deliverEvent` models one frame processed by the loop (lines
225–283, unguarded); `deliverDone` models the `"[DONE]"` frame (sets
the local `receivedDone`, no state write); `streamEnds` models loop
exit plus the final reducer (lines 328–346, unguarded);
`abortRejects` models the `catch` with `controller.signal.aborted`
(lines 347–354, unguarded `setState` to `canceled`).  A fetch may
resolve even after abort is signalled (the race the token is meant to
cover), so `fetchResolves` does not require the run to be unaborted. -/

inductive RunPC where
  | awaitingFetch
  | reading
  | done
deriving DecidableEq, Repr

/-- One in-flight (or finished) invocation of `start`. -/
structure RunState where
  id : Nat
  pc : RunPC
  aborted : Bool
  receivedDone : Bool
deriving DecidableEq, Repr

/-- The hook's world: the token counter (`requestIdRef`), the React
state (`state`) and the set of `start` invocations. -/
structure HookConfig where
  currentToken : Nat
  sess : SessionState
  runs : List RunState
deriving DecidableEq, Repr

/-- Interleaving actions. -/
inductive HookAction where
  | startNew
  | fetchResolves (i : Nat)
  | deliverEvent (i : Nat) (e : GenEvent)
  | deliverDone (i : Nat)
  | streamEnds (i : Nat)
  | abortRejects (i : Nat)
deriving DecidableEq, Repr

/-- Which run (by index) an action belongs to. -/
def actionRunIdx : HookAction → Option Nat
  | .startNew => none
  | .fetchResolves i => some i
  | .deliverEvent i _ => some i
  | .deliverDone i => some i
  | .streamEnds i => some i
  | .abortRejects i => some i

/-- `resetForRun`: `{...INITIAL_STATE, lifecycle: "requesting",
stage: "queued"}`. -/
def resetForRunState : SessionState :=
  { INITIAL_STATE with lifecycle := .requesting, stage := .queued }

/-- The interleaving step function (see the section comment for the
line-by-line mapping). -/
def step (c : HookConfig) (a : HookAction) : HookConfig :=
  match a with
  | .startNew =>
    let token := c.currentToken + 1
    { currentToken := token
      sess := resetForRunState
      runs := (c.runs.map fun r =>
          if r.pc = .done then r else { r with aborted := true }) ++
        [{ id := token, pc := .awaitingFetch, aborted := false,
           receivedDone := false }] }
  | .fetchResolves i =>
    match c.runs.get? i with
    | some r =>
      if r.pc = .awaitingFetch then
        if r.id ≠ c.currentToken then
          { c with runs := c.runs.set i { r with pc := .done } }
        else
          { c with
            sess := { c.sess with
              lifecycle := GenerationLifecycle.streaming
              stage := GenerationStage.queued }
            runs := c.runs.set i { r with pc := .reading } }
      else c
    | none => c
  | .deliverEvent i e =>
    match c.runs.get? i with
    | some r =>
      if r.pc = .reading then
        let res := applyGenerationEvent e c.sess
        { c with
          sess := res.1
          runs := c.runs.set i
            { r with pc := if res.2 then .done else .reading } }
      else c
    | none => c
  | .deliverDone i =>
    match c.runs.get? i with
    | some r =>
      if r.pc = .reading then
        { c with runs := c.runs.set i { r with receivedDone := true } }
      else c
    | none => c
  | .streamEnds i =>
    match c.runs.get? i with
    | some r =>
      if r.pc = .reading then
        { c with
          sess := finalizeOnStreamEnd r.receivedDone c.sess
          runs := c.runs.set i { r with pc := .done } }
      else c
    | none => c
  | .abortRejects i =>
    match c.runs.get? i with
    | some r =>
      if (r.pc = .awaitingFetch ∨ r.pc = .reading) ∧ r.aborted = true then
        { c with
          sess := { c.sess with lifecycle := GenerationLifecycle.canceled }
          runs := c.runs.set i { r with pc := .done } }
      else c
    | none => c

/-- The hook before any run. -/
def initialHookConfig : HookConfig :=
  { currentToken := 0, sess := INITIAL_STATE, runs := [] }

/-- Run a whole interleaving. -/
def runTrace (actions : List HookAction) : HookConfig :=
  actions.foldl step initialHookConfig

/-! ## Checkpoint store (`lib/client/sandbox-checkpoints.ts` and the
`setCheckpoints` updater of `createCheckpointSnapshot`) -/

/-- `SnapshotFile`. -/
structure SnapshotFile where
  path : Str
  content : Str
deriving DecidableEq, Repr

/-- `SandboxCheckpoint`. -/
structure SandboxCheckpoint where
  id : Str
  label : Str
  createdAt : Nat
  prompt : Str
  files : List SnapshotFile
  fileCount : Nat
  totalBytes : Nat
  truncated : Bool
deriving DecidableEq, Repr

/-- `MAX_CHECKPOINTS`. -/
def MAX_CHECKPOINTS : Nat := 8

/-- The `setCheckpoints` updater of `createCheckpointSnapshot`:
`[checkpoint, ...prev].slice(0, 8)`. -/
def checkpointCreateStep (prev : List SandboxCheckpoint)
    (c : SandboxCheckpoint) : List SandboxCheckpoint :=
  (c :: prev).take MAX_CHECKPOINTS

/-- The stored list after a sequence of checkpoint creations, starting
from an empty list. -/
def applyCheckpointCreations (creations : List SandboxCheckpoint) :
    List SandboxCheckpoint :=
  creations.foldl checkpointCreateStep []

/-- What `persistSandboxCheckpoints` writes:
`checkpoints.slice(0, MAX_CHECKPOINTS)`. -/
def persistClamp (checkpoints : List SandboxCheckpoint) :
    List SandboxCheckpoint :=
  checkpoints.take MAX_CHECKPOINTS

/-- The postprocessing of `loadSandboxCheckpoints` on the parsed array:
`parsed.filter(isSandboxCheckpoint).slice(0, MAX_CHECKPOINTS)`. -/
def loadClamp (parsed : List SandboxCheckpoint)
    (isValid : SandboxCheckpoint → Bool) : List SandboxCheckpoint :=
  (parsed.filter isValid).take MAX_CHECKPOINTS

/-! ## Theorems -/

theorem inferStageFromProgress_eq_classify (m : Str) (s : GenerationStage) :
    inferStageFromProgress m s = (classifyProgress m).getD s := by
  unfold inferStageFromProgress classifyProgress
  dsimp only
  split <;> try rfl
  split <;> try rfl
  split <;> try rfl
  split <;> rfl

theorem stageSeq_nonDecreasing (ms : List Str) :
    ∀ s : GenerationStage,
      rankLeHead s (ms.filterMap classifyProgress) = true →
      ranksNonDecreasing (ms.filterMap classifyProgress) = true →
      ranksNonDecreasing (s :: stageSeq s ms) = true := by
  induction ms with
  | nil => intro s _ _; rfl
  | cons m rest ih =>
    intro s hhead hchain
    have hnext : inferStageFromProgress m s = (classifyProgress m).getD s :=
      inferStageFromProgress_eq_classify m s
    cases hc : classifyProgress m with
    | none =>
      have hfm : (m :: rest).filterMap classifyProgress =
          rest.filterMap classifyProgress := by
        simp [List.filterMap_cons, hc]
      rw [hfm] at hhead hchain
      have htail := ih s hhead hchain
      have hs : inferStageFromProgress m s = s := by rw [hnext, hc]; rfl
      show ranksNonDecreasing
        (s :: inferStageFromProgress m s :: stageSeq (inferStageFromProgress m s) rest) = true
      rw [hs]
      show (decide (stageRank s ≤ stageRank s) && ranksNonDecreasing (s :: stageSeq s rest)) = true
      rw [htail]
      simp
    | some t =>
      have hfm : (m :: rest).filterMap classifyProgress =
          t :: rest.filterMap classifyProgress := by
        simp [List.filterMap_cons, hc]
      rw [hfm] at hhead hchain
      have hst : inferStageFromProgress m s = t := by rw [hnext, hc]; rfl
      have hheadt : rankLeHead t (rest.filterMap classifyProgress) = true := by
        cases hr : rest.filterMap classifyProgress with
        | nil => rfl
        | cons u us =>
          rw [hr] at hchain
          exact And.left (Bool.and_eq_true_iff.mp hchain)
      have hchaint : ranksNonDecreasing (rest.filterMap classifyProgress) = true := by
        cases hr : rest.filterMap classifyProgress with
        | nil => rfl
        | cons u us =>
          rw [hr] at hchain
          exact And.right (Bool.and_eq_true_iff.mp hchain)
      have htail := ih t hheadt hchaint
      show ranksNonDecreasing
        (s :: inferStageFromProgress m s :: stageSeq (inferStageFromProgress m s) rest) = true
      rw [hst]
      show (decide (stageRank s ≤ stageRank t) && ranksNonDecreasing (t :: stageSeq t rest)) = true
      rw [htail]
      have : stageRank s ≤ stageRank t := by
        have := hhead
        unfold rankLeHead at this
        exact of_decide_eq_true this
      simp [this]

/-- C2 counterexample: the progress messages `"npm install"` then
`"writing files"` drive the stage from `installing_deps` back to
`generating_code`, so the derived stage sequence
`queued, installing_deps, generating_code` is not non-decreasing: the
classifier does move the stage backward from the current stage. -/
theorem C2_stage_regression_counterexample :
    stageSeq .queued [lit "npm install", lit "writing files"] =
      [.installing_deps, .generating_code] ∧
    ranksNonDecreasing
      (GenerationStage.queued ::
        stageSeq .queued [lit "npm install", lit "writing files"]) = false := by
  decide

/-- C2 (amended): the classifier sets the stage to the matched keyword
group independently of the current stage (and keeps the current stage
when nothing matches), so the derived stage sequence starting from
`queued` is non-decreasing whenever the stages matched by the messages
occur in non-decreasing pipeline order; a message matching an earlier
group than the current stage moves the stage backward. -/
theorem C2_stage_monotone_for_ordered_messages (ms : List Str)
    (h : ranksNonDecreasing (ms.filterMap classifyProgress) = true) :
    ranksNonDecreasing (GenerationStage.queued :: stageSeq .queued ms) = true := by
  refine stageSeq_nonDecreasing ms .queued ?_ h
  cases ms.filterMap classifyProgress with
  | nil => rfl
  | cons t ts => simp [rankLeHead, stageRank]

/-- Witness for `C2_stage_monotone_for_ordered_messages` at a concrete
pipeline-ordered message sequence. -/
theorem C2_stage_monotone_witness :
    ranksNonDecreasing
      (GenerationStage.queued ::
        stageSeq .queued
          [lit "sandbox created", lit "writing app/page.tsx",
           lit "npm install", lit "starting development server"]) = true :=
  C2_stage_monotone_for_ordered_messages
    [lit "sandbox created", lit "writing app/page.tsx",
     lit "npm install", lit "starting development server"]
    (by decide)

/-- C3: the frame decoder is not invariant under re-chunking when a CRLF
pair is split across a chunk boundary.  The stream
`"data: a\r\n\r\ndata: b\r\n\r\n"` decodes to the two frames
`"a"`, `"b"` when fed whole, but to the single merged frame `"a\nb"`
when fed as `"data: a\r\n\r"` + `"\ndata: b\r\n\r\n"` — the stray CR
left by per-chunk normalization hides the first event delimiter. -/
theorem C3_split_crlf_divergence :
    lit "data: a\r\n\r" ++ lit "\ndata: b\r\n\r\n" =
      lit "data: a\r\n\r\ndata: b\r\n\r\n" ∧
    decodeChunks [lit "data: a\r\n\r\ndata: b\r\n\r\n"] = [lit "a", lit "b"] ∧
    decodeChunks [lit "data: a\r\n\r", lit "\ndata: b\r\n\r\n"] = [lit "a\nb"] ∧
    decodeChunks [lit "data: a\r\n\r", lit "\ndata: b\r\n\r\n"] ≠
      decodeChunks [lit "data: a\r\n\r\ndata: b\r\n\r\n"] := by
  decide

theorem lcpLen_self (l : List Str) : lcpLen l l = l.length := by
  induction l with
  | nil => rfl
  | cons a as ih => simp [lcpLen, ih]

/-- C9: `diff(path, x, x)` reports `changed = false` and zero additions
and deletions for every path and every text `x`, including the empty
string. -/
theorem C9_diff_identity (path x : Str) :
    (createUnifiedDiff path x x).changed = false ∧
    (createUnifiedDiff path x x).additions = 0 ∧
    (createUnifiedDiff path x x).deletions = 0 := by
  simp [createUnifiedDiff]

theorem splitOnChar_ne_nil (sep : Char) (l : Str) : splitOnChar sep l ≠ [] := by
  cases l with
  | nil => simp [splitOnChar]
  | cons c rest =>
    unfold splitOnChar
    by_cases hc : c = sep
    · simp [hc]
    · simp only [if_neg hc]
      cases h : splitOnChar sep rest with
      | nil => simp
      | cons s ss => simp

theorem sep_not_mem_of_mem_splitOnChar (sep : Char) (l : Str) :
    ∀ s ∈ splitOnChar sep l, sep ∉ s := by
  induction l with
  | nil =>
    intro s hs
    simp [splitOnChar] at hs
    simp [hs]
  | cons c rest ih =>
    intro s hs
    unfold splitOnChar at hs
    by_cases hc : c = sep
    · rw [if_pos hc] at hs
      rcases List.mem_cons.mp hs with h | h
      · simp [h]
      · exact ih s h
    · rw [if_neg hc] at hs
      cases h : splitOnChar sep rest with
      | nil => exact absurd h (splitOnChar_ne_nil sep rest)
      | cons s0 ss =>
        rw [h] at hs
        rcases List.mem_cons.mp hs with h1 | h1
        · subst h1
          intro hmem
          rcases List.mem_cons.mp hmem with h2 | h2
          · exact hc h2.symm
          · exact ih s0 (h ▸ List.mem_cons_self s0 ss) h2
        · exact ih s (h ▸ List.mem_cons_of_mem s0 h1)

theorem mem_of_mem_splitOnChar (sep : Char) (l : Str) :
    ∀ s ∈ splitOnChar sep l, ∀ c ∈ s, c ∈ l := by
  induction l with
  | nil =>
    intro s hs
    simp [splitOnChar] at hs
    simp [hs]
  | cons a rest ih =>
    intro s hs c hc
    unfold splitOnChar at hs
    by_cases ha : a = sep
    · rw [if_pos ha] at hs
      rcases List.mem_cons.mp hs with h | h
      · simp [h] at hc
      · exact List.mem_cons_of_mem a (ih s h c hc)
    · rw [if_neg ha] at hs
      cases h : splitOnChar sep rest with
      | nil => exact absurd h (splitOnChar_ne_nil sep rest)
      | cons s0 ss =>
        rw [h] at hs
        rcases List.mem_cons.mp hs with h1 | h1
        · subst h1
          rcases List.mem_cons.mp hc with h2 | h2
          · exact h2 ▸ List.mem_cons_self a rest
          · exact List.mem_cons_of_mem a
              (ih s0 (h ▸ List.mem_cons_self s0 ss) c h2)
        · exact List.mem_cons_of_mem a
            (ih s (h ▸ List.mem_cons_of_mem s0 h1) c hc)

theorem splitOnChar_of_not_mem (sep : Char) (s : Str) (h : sep ∉ s) :
    splitOnChar sep s = [s] := by
  induction s with
  | nil => rfl
  | cons c rest ih =>
    have hc : ¬ c = sep := fun hh => h (hh ▸ List.mem_cons_self c rest)
    have hrest : sep ∉ rest := fun hh => h (List.mem_cons_of_mem c hh)
    unfold splitOnChar
    rw [if_neg hc, ih hrest]

theorem splitOnChar_append_sep (sep : Char) (s t : Str) (h : sep ∉ s) :
    splitOnChar sep (s ++ sep :: t) = s :: splitOnChar sep t := by
  induction s with
  | nil => simp [splitOnChar]
  | cons c rest ih =>
    have hc : ¬ c = sep := fun hh => h (hh ▸ List.mem_cons_self c rest)
    have hrest : sep ∉ rest := fun hh => h (List.mem_cons_of_mem c hh)
    show splitOnChar sep (c :: (rest ++ sep :: t)) = (c :: rest) :: splitOnChar sep t
    unfold splitOnChar
    rw [if_neg hc, ih hrest]
    simp
    cases t <;> rfl

theorem splitOnChar_joinWith (L : List Str) (hne : L ≠ [])
    (hsep : ∀ s ∈ L, '/' ∉ s) :
    splitOnChar '/' (joinWith '/' L) = L := by
  induction L with
  | nil => exact absurd rfl hne
  | cons s rest ih =>
    cases rest with
    | nil =>
      exact splitOnChar_of_not_mem '/' s (hsep s (List.mem_cons_self s []))
    | cons s2 rest2 =>
      show splitOnChar '/' (s ++ '/' :: joinWith '/' (s2 :: rest2)) = _
      rw [splitOnChar_append_sep '/' s _ (hsep s (List.mem_cons_self s _))]
      rw [ih (by simp) (fun u hu => hsep u (List.mem_cons_of_mem s hu))]

theorem splitOnChar_append_trailing (sep : Char) (s : Str) :
    splitOnChar sep (s ++ [sep]) = splitOnChar sep s ++ [[]] := by
  induction s with
  | nil => simp [splitOnChar]
  | cons c rest ih =>
    show splitOnChar sep (c :: (rest ++ [sep])) = _
    unfold splitOnChar
    by_cases hc : c = sep
    · simp only [if_pos hc, ih]
      simp
    · simp only [if_neg hc, ih]
      cases h : splitOnChar sep rest with
      | nil => exact absurd h (splitOnChar_ne_nil sep rest)
      | cons s0 ss => simp

/-- Every segment kept by `normSegs` is either `".."` or comes from the
input segment list or the accumulator. -/
theorem normSegs_provenance (alw : Bool) :
    ∀ (segs : List Str) (acc : List Str) (s : Str),
      s ∈ normSegs alw acc segs → s = dotdot ∨ s ∈ segs ∨ s ∈ acc := by
  intro segs
  induction segs with
  | nil =>
    intro acc s hs
    simp [normSegs] at hs
    tauto
  | cons seg rest ih =>
    intro acc s hs
    unfold normSegs at hs
    split at hs
    · rcases ih acc s hs with h | h | h <;> simp_all
    · split at hs
      · split at hs
        · split at hs
          · rcases ih _ s hs with h | h | h <;> simp_all
            tauto
          · rcases ih _ s hs with h | h | h <;> simp_all
        · split at hs
          · split at hs
            · rcases ih _ s hs with h | h | h <;> simp_all
            · rcases ih _ s hs with h | h | h <;> simp_all
          · rcases ih _ s hs with h | h | h <;> simp_all
            all_goals first
              | tauto
              | exact Or.inr (Or.inr (List.mem_of_mem_tail h))
      · rcases ih _ s hs with h | h | h <;> simp_all
        all_goals tauto

theorem segWF_dotdot : SegWF dotdot := by
  refine ⟨by decide, by decide, by decide, by decide⟩

/-- `normSegs` keeps only well-formed segments, provided the input
segments are slash- and null-free. -/
theorem normSegs_wf (alw : Bool) :
    ∀ (segs : List Str) (acc : List Str),
      (∀ s ∈ acc, SegWF s) →
      (∀ s ∈ segs, '/' ∉ s ∧ '\x00' ∉ s) →
      ∀ s ∈ normSegs alw acc segs, SegWF s := by
  intro segs
  induction segs with
  | nil =>
    intro acc hacc _ s hs
    simp [normSegs] at hs
    exact hacc s hs
  | cons seg rest ih =>
    intro acc hacc hsegs s hs
    have hrest : ∀ s ∈ rest, '/' ∉ s ∧ '\x00' ∉ s :=
      fun u hu => hsegs u (List.mem_cons_of_mem seg hu)
    unfold normSegs at hs
    split at hs
    · exact ih acc hacc hrest s hs
    · split at hs
      · split at hs
        · split at hs
          · refine ih _ ?_ hrest s hs
            intro u hu
            rcases List.mem_cons.mp hu with h | h
            · exact h ▸ segWF_dotdot
            · exact hacc u h
          · exact ih _ hacc hrest s hs
        · split at hs
          · split at hs
            · refine ih _ ?_ hrest s hs
              intro u hu
              rcases List.mem_cons.mp hu with h | h
              · exact h ▸ segWF_dotdot
              · simp at h
            · refine ih _ ?_ hrest s hs
              intro u hu
              simp at hu
          · exact ih _ (fun u hu => hacc u (List.mem_of_mem_tail hu)) hrest s hs
      · rename_i h1 h2
        refine ih _ ?_ hrest s hs
        intro u hu
        rcases List.mem_cons.mp hu with h | h
        · have hp := hsegs seg (List.mem_cons_self seg rest)
          push_neg at h1
          exact h ▸ ⟨h1.1, h1.2, hp.1, hp.2⟩
        · exact hacc u h

/-- The output of `normSegs` is a (possibly empty) block of `".."`
segments followed by `".."`-free names. -/
theorem normSegs_shape (alw : Bool) :
    ∀ (segs : List Str) (acc : List Str),
      AccShape acc →
      ∃ k names, normSegs alw acc segs = List.replicate k dotdot ++ names ∧
        dotdot ∉ names := by
  intro segs
  induction segs with
  | nil =>
    intro acc hacc
    obtain ⟨nr, k, heq, hnr⟩ := hacc
    refine ⟨k, nr.reverse, ?_, by simpa using hnr⟩
    simp [normSegs, heq, List.reverse_append, List.reverse_replicate]
  | cons seg rest ih =>
    intro acc hacc
    obtain ⟨nr, k, heq, hnr⟩ := hacc
    unfold normSegs
    split
    · exact ih acc ⟨nr, k, heq, hnr⟩
    · split
      · split
        · rename_i hhd
          have hnrnil : nr = [] := by
            cases hnrc : nr with
            | nil => rfl
            | cons u nr2 =>
              exfalso
              rw [hnrc] at heq hnr
              rw [heq] at hhd
              simp at hhd
              exact hnr (by simp [hhd])
          rw [hnrnil] at heq
          simp at heq
          have hk : 1 ≤ k := by
            by_contra hk0
            push_neg at hk0
            interval_cases k
            · rw [heq] at hhd
              simp at hhd
          split
          · refine ih _ ⟨[], k + 1, ?_, by simp⟩
            rw [heq]
            simp [List.replicate_succ]
          · exact ih _ ⟨[], k, by simpa using heq, by simp⟩
        · split
          · rename_i hhd hnil
            split
            · exact ih _ ⟨[], 1, by simp, by simp⟩
            · exact ih _ ⟨[], 0, by simp, by simp⟩
          · rename_i hhd hnil
            have hnrc : ∃ u nr2, nr = u :: nr2 := by
              cases hnrc2 : nr with
              | nil =>
                exfalso
                rw [hnrc2] at heq
                simp at heq
                cases hk : k with
                | zero => rw [hk] at heq; simp at heq; exact hnil (heq ▸ rfl)
                | succ k2 =>
                  rw [hk, List.replicate_succ] at heq
                  rw [heq] at hhd
                  simp at hhd
              | cons u nr2 => exact ⟨u, nr2, rfl⟩
            obtain ⟨u, nr2, hnrc⟩ := hnrc
            rw [hnrc] at heq hnr
            refine ih _ ⟨nr2, k, ?_, fun hm => hnr (List.mem_cons_of_mem u hm)⟩
            rw [heq]
            simp
      · rename_i h1 h2
        refine ih _ ⟨seg :: nr, k, by simp [heq], ?_⟩
        intro hmem
        rcases List.mem_cons.mp hmem with h | h
        · exact h2 h.symm
        · exact hnr h

theorem mem_joinWith (sep : Char) :
    ∀ (L : List Str) (c : Char), c ∈ joinWith sep L → c = sep ∨ ∃ s ∈ L, c ∈ s := by
  intro L
  induction L with
  | nil => intro c hc; simp [joinWith] at hc
  | cons s rest ih =>
    intro c hc
    cases rest with
    | nil =>
      simp only [joinWith] at hc
      exact Or.inr ⟨s, List.mem_cons_self s [], hc⟩
    | cons s2 rest2 =>
      simp only [joinWith] at hc
      rcases List.mem_append.mp hc with h | h
      · exact Or.inr ⟨s, List.mem_cons_self s _, h⟩
      · rcases List.mem_cons.mp h with h2 | h2
        · exact Or.inl h2
        · rcases ih c h2 with h3 | ⟨u, hu, hcu⟩
          · exact Or.inl h3
          · exact Or.inr ⟨u, List.mem_cons_of_mem s hu, hcu⟩

theorem joinWith_cons_decomp (sep : Char) (s : Str) (rest : List Str) :
    ∃ t, joinWith sep (s :: rest) = s ++ t := by
  cases rest with
  | nil => exact ⟨[], by simp [joinWith]⟩
  | cons s2 rest2 => exact ⟨sep :: joinWith sep (s2 :: rest2), rfl⟩

theorem stripLeadingDotSlash_no_op (s : Str)
    (h : ∀ rest : Str, s ≠ '.' :: '/' :: rest) : stripLeadingDotSlash s = s := by
  match s with
  | [] => rfl
  | [c] => rfl
  | c1 :: c2 :: t =>
    show (if c1 = '.' ∧ c2 = '/' then t.dropWhile (fun c => c = '/')
      else c1 :: c2 :: t) = c1 :: c2 :: t
    rw [if_neg]
    intro hc
    exact h t (by rw [hc.1, hc.2])

/-- Relative inputs to `posixNormalize` resolve to `"."`, `"./"`, or a
join of well-formed segments consisting of a `".."` block followed by
`".."`-free names, optionally with a trailing slash. -/
theorem posixNormalize_relative_cases (p : Str) (hp : p ≠ [])
    (hhd : p.head? ≠ some '/') (hnull : '\x00' ∉ p) :
    posixNormalize p = lit "." ∨ posixNormalize p = lit "./" ∨
    ∃ segs : List Str, segs ≠ [] ∧ (∀ s ∈ segs, SegWF s) ∧
      (∃ k names, segs = List.replicate k dotdot ++ names ∧ dotdot ∉ names) ∧
      (posixNormalize p = joinWith '/' segs ∨
        posixNormalize p = joinWith '/' segs ++ ['/']) := by
  have hsegsrc : ∀ s ∈ splitOnChar '/' p, '/' ∉ s ∧ '\x00' ∉ s := by
    intro s hs
    refine ⟨sep_not_mem_of_mem_splitOnChar '/' p s hs, fun hc => ?_⟩
    exact hnull (mem_of_mem_splitOnChar '/' p s hs '\x00' hc)
  have habs : (decide (p.head? = some '/')) = false := by
    simp [hhd]
  have hwf : ∀ s ∈ normSegs true [] (splitOnChar '/' p), SegWF s :=
    normSegs_wf true (splitOnChar '/' p) [] (by simp) hsegsrc
  have hshape := normSegs_shape true (splitOnChar '/' p) [] ⟨[], 0, by simp, by simp⟩
  unfold posixNormalize
  rw [if_neg hp]
  simp only [habs, Bool.not_false, if_false]
  by_cases hres : joinWith '/' (normSegs true [] (splitOnChar '/' p)) = []
  · rw [if_pos hres, if_neg hhd]
    by_cases htr : p.getLast? = some '/'
    · rw [if_pos htr]
      exact Or.inr (Or.inl rfl)
    · rw [if_neg htr]
      exact Or.inl rfl
  · rw [if_neg hres]
    refine Or.inr (Or.inr ⟨normSegs true [] (splitOnChar '/' p), ?_, hwf, hshape, ?_⟩)
    · intro hnil
      exact hres (by rw [hnil]; rfl)
    · rw [if_neg hhd]
      by_cases htr : p.getLast? = some '/'
      · rw [if_pos htr]
        exact Or.inr rfl
      · rw [if_neg htr]
        exact Or.inl rfl

theorem head?_append_of_ne_nil (l t : Str) (h : l ≠ []) :
    (l ++ t).head? = l.head? := by
  cases l with
  | nil => exact absurd rfl h
  | cons c r => rfl

/-- A join of a `".."`-headed segment list is caught by the traversal
guard of `normalizeRelativeSandboxPath`, with `stripLeadingDotSlash`
leaving it untouched. -/
theorem guard_catches_dotdot (segs2 : List Str) (tail : Str)
    (htail : tail = [] ∨ ∃ r, tail = '/' :: r) :
    let pn := joinWith '/' (dotdot :: segs2) ++ tail
    stripLeadingDotSlash pn = pn ∧
      (pn = dotdot ∨ (dotdot ++ ['/']).isPrefixOf pn) := by
  intro pn
  have hdecomp : ∃ r, pn = '.' :: '.' :: r ∧ (r = [] ∨ ∃ r2, r = '/' :: r2) := by
    cases segs2 with
    | nil =>
      refine ⟨tail, ?_, htail⟩
      show joinWith '/' [dotdot] ++ tail = _
      simp [joinWith, dotdot, lit]
    | cons s2 rest2 =>
      refine ⟨'/' :: (joinWith '/' (s2 :: rest2) ++ tail), ?_, Or.inr ⟨_, rfl⟩⟩
      show joinWith '/' (dotdot :: s2 :: rest2) ++ tail = _
      simp [joinWith, dotdot, lit]
  obtain ⟨r, hpn, hr⟩ := hdecomp
  constructor
  · refine stripLeadingDotSlash_no_op pn (fun rest hcontra => ?_)
    rw [hpn] at hcontra
    have : ('.' : Char) = '/' := by
      have h2 := congrArg (fun l => l.get? 1) hcontra
      simp at h2
    exact absurd this (by decide)
  · rcases hr with hr | ⟨r2, hr⟩
    · exact Or.inl (by rw [hpn, hr]; rfl)
    · refine Or.inr ?_
      have hpfx : (dotdot ++ ['/']) <+: pn := by
        refine ⟨r2, ?_⟩
        rw [hpn, hr]
        simp [dotdot, lit]
      exact List.isPrefixOf_iff_prefix.mpr hpfx

/-- A join of well-formed, `".."`-free segments survives
`stripLeadingDotSlash` unchanged, is not `"."`, and satisfies all three
safety properties. -/
theorem join_segs_safe (segs : List Str) (hne : segs ≠ [])
    (hwf : ∀ s ∈ segs, SegWF s) (hdd : dotdot ∉ segs) (tail : Str)
    (htail : tail = [] ∨ tail = ['/']) :
    let pn := joinWith '/' segs ++ tail
    stripLeadingDotSlash pn = pn ∧ pn ≠ lit "." ∧ SafeEditPath pn := by
  intro pn
  obtain ⟨n0, segs2, hsegs⟩ : ∃ n0 segs2, segs = n0 :: segs2 := by
    cases segs with
    | nil => exact absurd rfl hne
    | cons a b => exact ⟨a, b, rfl⟩
  have hn0 : SegWF n0 := hwf n0 (hsegs ▸ List.mem_cons_self n0 segs2)
  obtain ⟨t0, ht0⟩ := joinWith_cons_decomp '/' n0 segs2
  have hpn : pn = n0 ++ (t0 ++ tail) := by
    show joinWith '/' segs ++ tail = _
    rw [hsegs, ht0, List.append_assoc]
  have hstrip : stripLeadingDotSlash pn = pn := by
    refine stripLeadingDotSlash_no_op pn (fun rest hcontra => ?_)
    rw [hpn] at hcontra
    cases hn0c : n0 with
    | nil => exact hn0.1 hn0c
    | cons c1 n1 =>
      rw [hn0c] at hcontra
      have hc1 : c1 = '.' := by
        have := congrArg List.head? hcontra
        simpa using this
      cases hn1c : n1 with
      | nil =>
        exact hn0.2.1 (by rw [hn0c, hn1c, hc1]; rfl)
      | cons c2 n2 =>
        rw [hn1c] at hcontra
        have hc2 : c2 = '/' := by
          have := congrArg (fun l => l.get? 1) hcontra
          simpa using this
        refine hn0.2.2.1 ?_
        rw [hn0c, hn1c, hc2]
        exact List.mem_cons_of_mem c1 (List.mem_cons_self '/' n2)
  refine ⟨hstrip, ?_, ?_, ?_, ?_⟩
  · intro hdot
    rw [hpn] at hdot
    cases hn0c : n0 with
    | nil => exact hn0.1 hn0c
    | cons c1 n1 =>
      rw [hn0c] at hdot
      have hdot2 : c1 :: (n1 ++ (t0 ++ tail)) = ['.'] := by simpa [lit] using hdot
      injection hdot2 with hc1 hrest
      have hn1 : n1 = [] := by
        cases n1 with
        | nil => rfl
        | cons a b => simp at hrest
      exact hn0.2.1 (by rw [hn0c, hc1, hn1]; rfl)
  · show dotdot ∉ splitOnChar '/' pn
    have hslash : ∀ s ∈ segs, '/' ∉ s := fun s hs => (hwf s hs).2.2.1
    rcases htail with ht | ht
    · have : pn = joinWith '/' segs := by show joinWith '/' segs ++ tail = _; rw [ht]; simp
      rw [this, splitOnChar_joinWith segs hne hslash]
      exact hdd
    · have : pn = joinWith '/' segs ++ ['/'] := by
        show joinWith '/' segs ++ tail = _; rw [ht]
      rw [this, splitOnChar_append_trailing '/' (joinWith '/' segs),
        splitOnChar_joinWith segs hne hslash]
      intro hmem
      rcases List.mem_append.mp hmem with h | h
      · exact hdd h
      · simp at h
        exact (by decide : dotdot ≠ ([] : Str)) h
  · show pn.head? ≠ some '/'
    rw [hpn, head?_append_of_ne_nil n0 _ hn0.1]
    cases hn0c : n0 with
    | nil => exact absurd hn0c hn0.1
    | cons c1 n1 =>
      simp only [List.head?]
      intro hc
      have : c1 = '/' := by simpa using hc
      exact hn0.2.2.1 (by rw [hn0c, this]; exact List.mem_cons_self '/' n1)
  · show '\x00' ∉ pn
    intro hmem
    rcases List.mem_append.mp hmem with h | h
    · rcases mem_joinWith '/' segs '\x00' h with h2 | ⟨s, hs, hcs⟩
      · exact absurd h2 (by decide)
      · exact (hwf s hs).2.2.2 hcs
    · rcases htail with ht | ht <;> rw [ht] at h <;> simp at h

theorem mem_of_mem_jsTrim (c : Char) (l : Str) (h : c ∈ jsTrim l) : c ∈ l := by
  unfold jsTrim at h
  rw [List.mem_reverse] at h
  have h3 : c ∈ (l.dropWhile jsWhitespace).reverse :=
    List.Sublist.mem h (List.dropWhile_sublist _)
  rw [List.mem_reverse] at h3
  exact List.Sublist.mem h3 (List.dropWhile_sublist _)

/-- Every non-empty path accepted by `normalizeRelativeSandboxPath` is
traversal-free, relative, and null-free. -/
theorem normalizeRelativeSandboxPath_safe (input out : Str)
    (h : normalizeRelativeSandboxPath input = .ok out) (hout : out ≠ []) :
    SafeEditPath out := by
  unfold normalizeRelativeSandboxPath at h
  split at h
  · exact absurd h (by simp)
  · rename_i hnull
    dsimp only at h
    split at h
    · rename_i hq
      injection h with h2
      exact absurd h2.symm hout
    · rename_i hq
      split at h
      · exact absurd h (by simp)
      · rename_i hhd
        split at h
        · exact absurd h (by simp)
        · rename_i hguard
          injection h with hval
          have hnq : '\x00' ∉ jsTrim (input.map fun c => if c = '\\' then '/' else c) := by
            intro hc
            have hm := mem_of_mem_jsTrim '\x00' _ hc
            rcases List.mem_map.mp hm with ⟨c0, hc0, hc0eq⟩
            have hc00 : c0 = '\x00' := by
              by_cases hb : c0 = '\\'
              · rw [if_pos hb] at hc0eq
                exact absurd hc0eq (by decide)
              · rwa [if_neg hb] at hc0eq
            rw [hc00] at hc0
            exact hnull (List.elem_eq_true_of_mem hc0)
          rcases posixNormalize_relative_cases _ hq hhd hnq with hpn | hpn | hpn
          · rw [hpn] at hval hguard
            have hstrip : stripLeadingDotSlash (lit ".") = lit "." := rfl
            rw [hstrip] at hval
            rw [if_pos rfl] at hval
            exact absurd hval.symm hout
          · rw [hpn] at hval hguard
            have hstrip : stripLeadingDotSlash (lit "./") = [] := rfl
            rw [hstrip] at hval
            rw [if_neg (by decide)] at hval
            exact absurd hval.symm hout
          · obtain ⟨segs, hne, hwf, ⟨k, names, hsegeq, hnames⟩, hjoin⟩ := hpn
            cases k with
            | succ k2 =>
              exfalso
              have hsegs2 : segs = dotdot :: (List.replicate k2 dotdot ++ names) := by
                rw [hsegeq, List.replicate_succ]
                simp
              rcases hjoin with hpn | hpn
              · have hthis := guard_catches_dotdot (List.replicate k2 dotdot ++ names) []
                  (Or.inl rfl)
                simp only [List.append_nil] at hthis
                rw [hpn, hsegs2] at hguard
                refine hguard ?_
                rw [hthis.1]
                exact hthis.2
              · have hthis := guard_catches_dotdot (List.replicate k2 dotdot ++ names) ['/']
                  (Or.inr ⟨[], rfl⟩)
                rw [hpn, hsegs2] at hguard
                refine hguard ?_
                rw [hthis.1]
                exact hthis.2
            | zero =>
              have hdd : dotdot ∉ segs := by
                rw [hsegeq]
                simpa using hnames
              rcases hjoin with hpn | hpn
              · have hsafe := join_segs_safe segs hne hwf hdd [] (Or.inl rfl)
                rw [hpn] at hval
                have hpn2 : joinWith '/' segs = joinWith '/' segs ++ [] := by simp
                rw [hpn2] at hval
                rw [hsafe.1] at hval
                rw [if_neg hsafe.2.1] at hval
                rw [← hval]
                exact hsafe.2.2
              · have hsafe := join_segs_safe segs hne hwf hdd ['/'] (Or.inr rfl)
                rw [hpn] at hval
                rw [hsafe.1] at hval
                rw [if_neg hsafe.2.1] at hval
                rw [← hval]
                exact hsafe.2.2

theorem contains_iff_mem (l : List Str) (a : Str) : l.contains a = true ↔ a ∈ l :=
  List.elem_iff

theorem normalizeLoop_invariant (cs : List AIEditCandidate) :
    ∀ (acc : List NormalizedEdit) (seen : List Str),
      (∀ e ∈ acc, e.pathOf ≠ [] ∧ SafeEditPath e.pathOf) →
      (acc.map NormalizedEdit.pathOf).Nodup →
      (∀ p ∈ acc.map NormalizedEdit.pathOf, seen.contains p = true) →
      (∀ e ∈ (normalizeLoop acc seen cs).1, e.pathOf ≠ [] ∧ SafeEditPath e.pathOf) ∧
        ((normalizeLoop acc seen cs).1.map NormalizedEdit.pathOf).Nodup ∧
        (∀ p ∈ (normalizeLoop acc seen cs).1.map NormalizedEdit.pathOf,
          (normalizeLoop acc seen cs).2.contains p = true) := by
  induction cs with
  | nil =>
    intro acc seen h1 h2 h3
    exact ⟨h1, h2, h3⟩
  | cons c rest ih =>
    intro acc seen h1 h2 h3
    unfold normalizeLoop
    dsimp only
    by_cases hcap : MAX_APPLY_EDITS ≤ acc.length
    · rw [if_pos hcap]
      exact ⟨h1, h2, h3⟩
    · rw [if_neg hcap]
      by_cases hshape : candRawPath c = [] ∨
          (candHasStringContent c = false ∧ candIsDelete c = false)
      · rw [if_pos hshape]
        exact ih acc seen h1 h2 h3
      · rw [if_neg hshape]
        rcases hok : normalizeRelativeSandboxPath (candRawPath c) with msg | p
        · exact ih acc seen h1 h2 h3
        · dsimp only
          by_cases hskip : p = [] ∨ seen.contains p = true
          · rw [if_pos hskip]
            exact ih acc seen h1 h2 h3
          · rw [if_neg hskip]
            have hp_ne : p ≠ [] := by
              intro hh
              exact hskip (Or.inl hh)
            have hp_safe : SafeEditPath p :=
              normalizeRelativeSandboxPath_safe _ p hok hp_ne
            have hp_notin : p ∉ acc.map NormalizedEdit.pathOf := by
              intro hh
              exact hskip (Or.inr (h3 p hh))
            have hseen2 : ∀ q ∈ acc.map NormalizedEdit.pathOf ++ [p],
                (p :: seen).contains q = true := by
              intro q hq
              rcases List.mem_append.mp hq with hh | hh
              · exact (contains_iff_mem _ _).mpr
                  (List.mem_cons_of_mem p ((contains_iff_mem _ _).mp (h3 q hh)))
              · simp at hh
                exact (contains_iff_mem _ _).mpr (hh ▸ List.mem_cons_self p seen)
            have hnodup2 : ((acc.map NormalizedEdit.pathOf) ++ [p]).Nodup := by
              rw [List.nodup_append]
              exact ⟨h2, List.nodup_singleton p, by simpa [List.Disjoint] using hp_notin⟩
            by_cases hdel : candIsDelete c = true
            · rw [if_pos hdel]
              refine ih (acc ++ [.del p]) (p :: seen) ?_ ?_ ?_
              · intro e he
                rcases List.mem_append.mp he with hh | hh
                · exact h1 e hh
                · simp at hh
                  rw [hh]
                  exact ⟨hp_ne, hp_safe⟩
              · simpa using hnodup2
              · simpa using hseen2
            · rw [if_neg hdel]
              refine ih (acc ++ [.write p _]) (p :: seen) ?_ ?_ ?_
              · intro e he
                rcases List.mem_append.mp he with hh | hh
                · exact h1 e hh
                · simp at hh
                  rw [hh]
                  exact ⟨hp_ne, hp_safe⟩
              · simpa using hnodup2
              · simpa using hseen2

theorem normalizeLoop_capped (ys : List AIEditCandidate)
    (acc : List NormalizedEdit) (seen : List Str)
    (h : MAX_APPLY_EDITS ≤ acc.length) :
    normalizeLoop acc seen ys = (acc, seen) := by
  cases ys with
  | nil => rfl
  | cons c rest =>
    unfold normalizeLoop
    rw [if_pos h]

theorem normalizeLoop_cons (acc : List NormalizedEdit) (seen : List Str)
    (c : AIEditCandidate) (l : List AIEditCandidate) :
    normalizeLoop acc seen (c :: l) =
      if MAX_APPLY_EDITS ≤ acc.length then (acc, seen)
      else if candRawPath c = [] ∨
          (candHasStringContent c = false ∧ candIsDelete c = false) then
        normalizeLoop acc seen l
      else
        match normalizeRelativeSandboxPath (candRawPath c) with
        | .error _ => normalizeLoop acc seen l
        | .ok p =>
          if p = [] ∨ seen.contains p = true then normalizeLoop acc seen l
          else if candIsDelete c then
            normalizeLoop (acc ++ [.del p]) (p :: seen) l
          else
            normalizeLoop
              (acc ++ [.write p
                (match c.content with | some (.str s) => s | _ => [])])
              (p :: seen) l := by
  rfl

theorem normalizeLoop_append (xs ys : List AIEditCandidate) :
    ∀ (acc : List NormalizedEdit) (seen : List Str),
      normalizeLoop acc seen (xs ++ ys) =
        normalizeLoop (normalizeLoop acc seen xs).1 (normalizeLoop acc seen xs).2 ys := by
  induction xs with
  | nil => intro acc seen; rfl
  | cons c rest ih =>
    intro acc seen
    show normalizeLoop acc seen (c :: (rest ++ ys)) = _
    rw [normalizeLoop_cons acc seen c (rest ++ ys), normalizeLoop_cons acc seen c rest]
    by_cases hcap : MAX_APPLY_EDITS ≤ acc.length
    · simp only [if_pos hcap]
      exact (normalizeLoop_capped ys acc seen hcap).symm
    · simp only [if_neg hcap]
      by_cases hshape : candRawPath c = [] ∨
          (candHasStringContent c = false ∧ candIsDelete c = false)
      · simp only [if_pos hshape]
        exact ih acc seen
      · simp only [if_neg hshape]
        rcases hok : normalizeRelativeSandboxPath (candRawPath c) with msg | p
        · dsimp only
          exact ih acc seen
        · dsimp only
          by_cases hskip : p = [] ∨ seen.contains p = true
          · simp only [if_pos hskip]
            exact ih acc seen
          · simp only [if_neg hskip]
            by_cases hdel : candIsDelete c = true
            · simp only [hdel, if_true]
              exact ih _ _
            · simp only [Bool.not_eq_true] at hdel
              simp only [hdel, Bool.false_eq_true, if_false]
              exact ih _ _

/-- C1: every entry emitted by `normalizeCandidateEdits` has a path with
no `".."` traversal segment, not absolute, and free of null bytes; the
emitted paths are pairwise distinct; and a candidate normalizing to an
already-emitted path contributes nothing (the first occurrence wins).
Totality — the normalizer never throws — holds by construction: every
`normalizeRelativeSandboxPath` error is caught and the candidate
dropped. -/
theorem C1_normalizer_safety :
    (∀ (cs : List AIEditCandidate), ∀ e ∈ normalizeCandidateEdits cs,
        dotdot ∉ splitOnChar '/' e.pathOf ∧ e.pathOf.head? ≠ some '/' ∧
          '\x00' ∉ e.pathOf) ∧
    (∀ cs : List AIEditCandidate,
        ((normalizeCandidateEdits cs).map NormalizedEdit.pathOf).Nodup) ∧
    (∀ (cs : List AIEditCandidate) (c : AIEditCandidate) (p : Str),
        candNormalizedPath c = some p →
        p ∈ (normalizeCandidateEdits cs).map NormalizedEdit.pathOf →
        normalizeCandidateEdits (cs ++ [c]) = normalizeCandidateEdits cs) := by
  have hbase := fun cs => normalizeLoop_invariant cs [] []
    (by simp) (by simp) (by simp)
  refine ⟨?_, ?_, ?_⟩
  · intro cs e he
    exact ((hbase cs).1 e he).2
  · intro cs
    exact (hbase cs).2.1
  · intro cs c p hc hp
    have hcontains : (normalizeLoop [] [] cs).2.contains p = true :=
      (hbase cs).2.2 p hp
    unfold candNormalizedPath at hc
    dsimp only at hc
    split at hc
    · exact absurd hc (by simp)
    · rename_i hshape
      rcases hok : normalizeRelativeSandboxPath (candRawPath c) with msg | p0
      · rw [hok] at hc
        exact absurd hc (by simp)
      · rw [hok] at hc
        dsimp only at hc
        split at hc
        · exact absurd hc (by simp)
        · rename_i hp0
          injection hc with hc
          subst hc
          show (normalizeLoop [] [] (cs ++ [c])).1 = (normalizeLoop [] [] cs).1
          rw [normalizeLoop_append cs [c] [] [], normalizeLoop_cons]
          by_cases hcap : MAX_APPLY_EDITS ≤ (normalizeLoop [] [] cs).1.length
          · rw [if_pos hcap]
          · rw [if_neg hcap, if_neg hshape, hok]
            dsimp only
            rw [if_pos (Or.inr hcontains)]
            rfl

/-- Witness for `C1_normalizer_safety` at concrete candidate lists: the
emitted entry for path `"a"` is safe, the emitted paths are distinct,
and a later candidate normalizing to the already-seen path `"a"`
(via `"./a"`) is dropped. -/
theorem C1_normalizer_safety_witness :
    (dotdot ∉ splitOnChar '/'
        (NormalizedEdit.write (lit "a") (lit "x")).pathOf ∧
      (NormalizedEdit.write (lit "a") (lit "x")).pathOf.head? ≠ some '/' ∧
      '\x00' ∉ (NormalizedEdit.write (lit "a") (lit "x")).pathOf) ∧
    ((normalizeCandidateEdits
        [⟨some (.str (lit "a")), some (.str (lit "x")), none⟩]).map
      NormalizedEdit.pathOf).Nodup ∧
    normalizeCandidateEdits
        ([⟨some (.str (lit "a")), some (.str (lit "x")), none⟩] ++
          [⟨some (.str (lit "./a")), some (.str (lit "y")), none⟩]) =
      normalizeCandidateEdits
        [⟨some (.str (lit "a")), some (.str (lit "x")), none⟩] :=
  ⟨C1_normalizer_safety.1
      [⟨some (.str (lit "a")), some (.str (lit "x")), none⟩]
      (NormalizedEdit.write (lit "a") (lit "x")) (by decide),
   C1_normalizer_safety.2.1
      [⟨some (.str (lit "a")), some (.str (lit "x")), none⟩],
   C1_normalizer_safety.2.2
      [⟨some (.str (lit "a")), some (.str (lit "x")), none⟩]
      ⟨some (.str (lit "./a")), some (.str (lit "y")), none⟩
      (lit "a") (by decide) (by decide)⟩

theorem buildPlan_cons (remote : Str → Option Str) (e : NormalizedEdit)
    (rest : List NormalizedEdit) :
    (buildPlan remote (e :: rest)).2 =
      if keepEdit remote e then e :: (buildPlan remote rest).2
      else (buildPlan remote rest).2 := by
  conv_lhs => rw [buildPlan.eq_def]
  dsimp only
  split
  · rename_i hskip
    rw [if_neg (fun hkeep => by
      unfold keepEdit at hkeep
      dsimp only at hkeep
      rw [if_pos hskip] at hkeep
      exact Bool.false_ne_true hkeep)]
  · rename_i hskip
    dsimp only
    split
    · rename_i hcond
      rw [if_pos (show keepEdit remote e = true by
        unfold keepEdit
        dsimp only
        rw [if_neg hskip]
        exact hcond)]
    · rename_i hcond
      rw [if_neg (fun hkeep => by
        unfold keepEdit at hkeep
        dsimp only at hkeep
        rw [if_neg hskip] at hkeep
        exact hcond hkeep)]

theorem buildPlan_effective_eq_filter (remote : Str → Option Str) :
    ∀ edits : List NormalizedEdit,
      (buildPlan remote edits).2 = edits.filter (keepEdit remote) := by
  intro edits
  induction edits with
  | nil => rfl
  | cons e rest ih =>
    rw [buildPlan_cons, List.filter_cons, ih]

theorem applyLoop_applied (fs : NormalizedEdit → Except Str Unit) :
    ∀ edits : List NormalizedEdit,
      (applyLoop fs edits).1 =
        (edits.filter (fun e => outcomeOk (fs e))).map NormalizedEdit.pathOf := by
  intro edits
  induction edits with
  | nil => rfl
  | cons e rest ih =>
    show (applyLoop fs (e :: rest)).1 = _
    rw [List.filter_cons]
    unfold applyLoop
    dsimp only
    rcases hfs : fs e with msg | u
    · simp [outcomeOk, hfs, ih]
    · simp [outcomeOk, hfs, ih]

theorem applyLoop_failed (fs : NormalizedEdit → Except Str Unit) :
    ∀ edits : List NormalizedEdit,
      (applyLoop fs edits).2 =
        (edits.filter (fun e => !outcomeOk (fs e))).map
          (fun e => ⟨e.pathOf, failReason (fs e)⟩) := by
  intro edits
  induction edits with
  | nil => rfl
  | cons e rest ih =>
    show (applyLoop fs (e :: rest)).2 = _
    rw [List.filter_cons]
    unfold applyLoop
    dsimp only
    rcases hfs : fs e with msg | u
    · simp [outcomeOk, hfs, ih]
    · simp [outcomeOk, hfs, ih]

theorem createUnifiedDiff_self_fields (path x : Str) :
    (createUnifiedDiff path x x).changed = false ∧
    (createUnifiedDiff path x x).additions = 0 ∧
    (createUnifiedDiff path x x).deletions = 0 := by
  simp [createUnifiedDiff]

theorem createUnifiedDiff_normEq (path prev next : Str) (hne : prev ≠ next)
    (heq : normalizeLineEndings prev = normalizeLineEndings next) :
    (createUnifiedDiff path prev next).changed = true ∧
    (createUnifiedDiff path prev next).additions = 0 ∧
    (createUnifiedDiff path prev next).deletions = 0 := by
  have hlines : splitLines prev = splitLines next := by
    unfold splitLines
    rw [heq]
  unfold createUnifiedDiff
  rw [if_neg hne]
  dsimp only
  rw [hlines, lcpLen_self, List.drop_length]
  simp [commonSuffixLen, lcpLen]

theorem keepEdit_write_same (remote : Str → Option Str) (p c : Str)
    (h : remote p = some c) :
    keepEdit remote (NormalizedEdit.write p c) = false := by
  have hd := createUnifiedDiff_self_fields p c
  simp [keepEdit, NormalizedEdit.pathOf, h, hd.1]

theorem keepEdit_del_missing (remote : Str → Option Str) (p : Str)
    (h : remote p = none) :
    keepEdit remote (NormalizedEdit.del p) = false := by
  simp [keepEdit, NormalizedEdit.pathOf, h]

theorem keepEdit_write_of_changed (remote : Str → Option Str) (p c : Str)
    (h : (createUnifiedDiff p ((remote p).getD []) c).changed = true) :
    keepEdit remote (NormalizedEdit.write p c) = true := by
  simp [keepEdit, NormalizedEdit.pathOf, h]

/-- C4 counterexample: when every write in the batch fails, the handler
returns the bare 500 error `"No edits were applied"` instead of the
structured `{applied, failed}` report the claim promises for every
partition. -/
theorem C4_all_fail_bare_error :
    postApplyMode (fun _ => none) (fun _ => Except.error (lit "disk full"))
        [NormalizedEdit.write (lit "a.ts") (lit "x")] =
      Except.error (lit "No edits were applied") := by
  decide

/-- C4 (amended): when at least one write succeeds, the response is the
structured report: `applied` lists exactly the paths of the succeeding
edits and `failed` lists exactly the failing edits with their reasons —
every edit is attempted regardless of other failures; but when every
write fails the handler instead returns a bare `"No edits were
applied"` error. -/
theorem C4_batch_report_with_success (eff : List NormalizedEdit)
    (fs : NormalizedEdit → Except Str Unit) (previews : List FileEditPreview)
    (h : ∃ e, e ∈ eff ∧ fs e = Except.ok ()) :
    applyPhase fs eff previews =
      Except.ok
        ⟨(eff.filter (fun e => outcomeOk (fs e))).map NormalizedEdit.pathOf,
         (eff.filter (fun e => !outcomeOk (fs e))).map
           (fun e => ⟨e.pathOf, failReason (fs e)⟩),
         previews⟩ := by
  unfold applyPhase
  dsimp only
  rw [applyLoop_applied, applyLoop_failed]
  have hne : ((eff.filter (fun e => outcomeOk (fs e))).map
      NormalizedEdit.pathOf) ≠ [] := by
    obtain ⟨e, he, hfs⟩ := h
    have hmem : e ∈ eff.filter (fun e => outcomeOk (fs e)) :=
      List.mem_filter.mpr ⟨he, by rw [hfs]; rfl⟩
    intro hnil
    exact absurd (hnil ▸ List.mem_map_of_mem NormalizedEdit.pathOf hmem)
      (List.not_mem_nil _)
  rw [if_neg (by simpa [List.isEmpty_iff] using hne)]

/-- Witness for `C4_batch_report_with_success`: a two-edit batch where
the second write fails yields the applied list `["a"]` and the
structured failure `[{path := "b", reason := "boom"}]`. -/
theorem C4_batch_report_witness :
    applyPhase
        (fun e => if e.pathOf = lit "b" then Except.error (lit "boom")
          else Except.ok ())
        [NormalizedEdit.write (lit "a") (lit "1"),
         NormalizedEdit.write (lit "b") (lit "2")] [] =
      Except.ok ⟨[lit "a"], [⟨lit "b", lit "boom"⟩], []⟩ := by
  rw [C4_batch_report_with_success
    [NormalizedEdit.write (lit "a") (lit "1"),
     NormalizedEdit.write (lit "b") (lit "2")]
    (fun e => if e.pathOf = lit "b" then Except.error (lit "boom")
      else Except.ok ())
    []
    ⟨NormalizedEdit.write (lit "a") (lit "1"), by decide, by decide⟩]
  decide

/-- C5: a non-delete edit whose content equals the current remote
content is excluded from the effective set; a deletion of a file absent
remotely is dropped before apply; and when the effective set is empty
the handler returns the `"No file changes detected from instruction"`
domain error (it is total and applies nothing). -/
theorem C5_noop_filtering :
    (∀ (remote : Str → Option Str) (edits : List NormalizedEdit) (p c : Str),
        remote p = some c →
        NormalizedEdit.write p c ∉ (buildPlan remote edits).2) ∧
    (∀ (remote : Str → Option Str) (edits : List NormalizedEdit) (p : Str),
        remote p = none →
        NormalizedEdit.del p ∉ (buildPlan remote edits).2) ∧
    (∀ (remote : Str → Option Str) (fs : NormalizedEdit → Except Str Unit)
        (edits : List NormalizedEdit), edits ≠ [] →
        (buildPlan remote edits).2 = [] →
        postApplyMode remote fs edits =
          Except.error (lit "No file changes detected from instruction")) := by
  refine ⟨?_, ?_, ?_⟩
  · intro remote edits p c h hmem
    rw [buildPlan_effective_eq_filter] at hmem
    have hk := (List.mem_filter.mp hmem).2
    rw [keepEdit_write_same remote p c h] at hk
    exact Bool.false_ne_true hk
  · intro remote edits p h hmem
    rw [buildPlan_effective_eq_filter] at hmem
    have hk := (List.mem_filter.mp hmem).2
    rw [keepEdit_del_missing remote p h] at hk
    exact Bool.false_ne_true hk
  · intro remote fs edits hne heff
    unfold postApplyMode
    rw [if_neg (by simpa [List.isEmpty_iff] using hne)]
    dsimp only
    rw [if_pos (by simpa [List.isEmpty_iff] using heff)]

/-- Witness for `C5_noop_filtering`: a batch whose only edits are a
same-content write and a deletion of a missing file filters down to
nothing and yields the domain error. -/
theorem C5_noop_filtering_witness :
    NormalizedEdit.write (lit "same.ts") (lit "x") ∉
      (buildPlan (fun q => if q = lit "same.ts" then some (lit "x") else none)
        [NormalizedEdit.write (lit "same.ts") (lit "x"),
         NormalizedEdit.del (lit "old.ts")]).2 ∧
    NormalizedEdit.del (lit "old.ts") ∉
      (buildPlan (fun q => if q = lit "same.ts" then some (lit "x") else none)
        [NormalizedEdit.write (lit "same.ts") (lit "x"),
         NormalizedEdit.del (lit "old.ts")]).2 ∧
    postApplyMode (fun q => if q = lit "same.ts" then some (lit "x") else none)
        (fun _ => Except.ok ())
        [NormalizedEdit.write (lit "same.ts") (lit "x"),
         NormalizedEdit.del (lit "old.ts")] =
      Except.error (lit "No file changes detected from instruction") :=
  ⟨C5_noop_filtering.1
      (fun q => if q = lit "same.ts" then some (lit "x") else none)
      [NormalizedEdit.write (lit "same.ts") (lit "x"),
       NormalizedEdit.del (lit "old.ts")]
      (lit "same.ts") (lit "x") (by decide),
   C5_noop_filtering.2.1
      (fun q => if q = lit "same.ts" then some (lit "x") else none)
      [NormalizedEdit.write (lit "same.ts") (lit "x"),
       NormalizedEdit.del (lit "old.ts")]
      (lit "old.ts") (by decide),
   C5_noop_filtering.2.2
      (fun q => if q = lit "same.ts" then some (lit "x") else none)
      (fun _ => Except.ok ())
      [NormalizedEdit.write (lit "same.ts") (lit "x"),
       NormalizedEdit.del (lit "old.ts")]
      (by decide) (by decide)⟩

/-- C10: two texts that differ as strings but agree after CRLF
normalization diff as `changed = true` with zero additions and
deletions (a hunk with no `+`/`-` body lines), the edit survives the
no-op filter, and an apply of that single edit writes it (its path is
reported as applied). -/
theorem C10_crlf_only_edit_applies (path prev next : Str) (hne : prev ≠ next)
    (heq : normalizeLineEndings prev = normalizeLineEndings next) :
    (createUnifiedDiff path prev next).changed = true ∧
    (createUnifiedDiff path prev next).additions = 0 ∧
    (createUnifiedDiff path prev next).deletions = 0 ∧
    keepEdit (fun q => if q = path then some prev else none)
      (NormalizedEdit.write path next) = true ∧
    ∃ r : ApplyResponse,
      postApplyMode (fun q => if q = path then some prev else none)
          (fun _ => Except.ok ()) [NormalizedEdit.write path next] =
        Except.ok r ∧ r.applied = [path] ∧ r.failed = [] := by
  have hd := createUnifiedDiff_normEq path prev next hne heq
  have hremote : (fun q => if q = path then some prev else none) path =
      some prev := if_pos rfl
  have hkeep : keepEdit (fun q => if q = path then some prev else none)
      (NormalizedEdit.write path next) = true := by
    refine keepEdit_write_of_changed _ path next ?_
    rw [if_pos rfl]
    exact hd.1
  refine ⟨hd.1, hd.2.1, hd.2.2, hkeep, ?_⟩
  have heff : (buildPlan (fun q => if q = path then some prev else none)
      [NormalizedEdit.write path next]).2 = [NormalizedEdit.write path next] := by
    rw [buildPlan_effective_eq_filter]
    rw [List.filter_cons]
    rw [if_pos hkeep]
    rfl
  refine ⟨⟨[path], [],
    (buildPlan (fun q => if q = path then some prev else none)
      [NormalizedEdit.write path next]).1⟩, ?_, rfl, rfl⟩
  unfold postApplyMode
  rw [if_neg (by simp)]
  dsimp only
  rw [heff]
  rw [if_neg (by simp)]
  unfold applyPhase applyLoop
  dsimp only [NormalizedEdit.pathOf]
  rfl

/-- Witness for `C10_crlf_only_edit_applies` at the concrete pair
`"a\r\n"` vs `"a\n"`. -/
theorem C10_crlf_only_edit_witness :
    (createUnifiedDiff (lit "f.ts") (lit "a\r\n") (lit "a\n")).changed = true ∧
    (createUnifiedDiff (lit "f.ts") (lit "a\r\n") (lit "a\n")).additions = 0 ∧
    (createUnifiedDiff (lit "f.ts") (lit "a\r\n") (lit "a\n")).deletions = 0 ∧
    keepEdit (fun q => if q = lit "f.ts" then some (lit "a\r\n") else none)
      (NormalizedEdit.write (lit "f.ts") (lit "a\n")) = true ∧
    ∃ r : ApplyResponse,
      postApplyMode (fun q => if q = lit "f.ts" then some (lit "a\r\n") else none)
          (fun _ => Except.ok ())
          [NormalizedEdit.write (lit "f.ts") (lit "a\n")] =
        Except.ok r ∧ r.applied = [lit "f.ts"] ∧ r.failed = [] :=
  C10_crlf_only_edit_applies (lit "f.ts") (lit "a\r\n") (lit "a\n")
    (by decide) (by decide)

/-- C6: when the stream closes on a session that is not already failed
or canceled, the lifecycle becomes `ready` exactly when a preview URL
was recorded, and otherwise becomes `failed` with a synthetic error that
differs between the DONE-received and stream-ended-early runs (the
hypothesis `prev.error` non-truthy reflects that the hook only ever
records an error together with a `failed`/`canceled` lifecycle). -/
theorem C6_stream_end_resolution (prev : SessionState) (receivedDone : Bool)
    (hlc : prev.lifecycle ≠ .failed) (hlc2 : prev.lifecycle ≠ .canceled)
    (herr : jsTruthyStr prev.error = false) :
    (jsTruthyStr prev.previewUrl = true →
      (finalizeOnStreamEnd receivedDone prev).lifecycle = .ready) ∧
    (jsTruthyStr prev.previewUrl = false →
      (finalizeOnStreamEnd receivedDone prev).lifecycle = .failed ∧
      (finalizeOnStreamEnd receivedDone prev).error =
        some (if receivedDone then doneNoPreviewMsg else endedEarlyMsg)) ∧
    doneNoPreviewMsg ≠ endedEarlyMsg := by
  unfold finalizeOnStreamEnd
  rw [if_neg (by simp [hlc, hlc2])]
  dsimp only
  refine ⟨?_, ?_, by decide⟩
  · intro hp
    rw [hp]
    simp
  · intro hp
    rw [hp]
    refine ⟨by simp, ?_⟩
    simp only [Bool.false_eq_true, if_false]
    cases herrc : prev.error with
    | none => rfl
    | some s =>
      rw [herrc] at herr
      unfold jsTruthyStr at herr
      simp only [Bool.not_eq_false'] at herr
      simp [jsOrStr, herr]

/-- Witness for `C6_stream_end_resolution` on a streaming session with
no preview URL and no recorded error, for both sentinel cases. -/
theorem C6_stream_end_witness :
    ((finalizeOnStreamEnd true
        { INITIAL_STATE with lifecycle := .streaming }).lifecycle =
          GenerationLifecycle.failed ∧
      (finalizeOnStreamEnd true
        { INITIAL_STATE with lifecycle := .streaming }).error =
          some doneNoPreviewMsg) ∧
    ((finalizeOnStreamEnd false
        { INITIAL_STATE with lifecycle := .streaming }).lifecycle =
          GenerationLifecycle.failed ∧
      (finalizeOnStreamEnd false
        { INITIAL_STATE with lifecycle := .streaming }).error =
          some endedEarlyMsg) := by
  have h1 := C6_stream_end_resolution
    { INITIAL_STATE with lifecycle := .streaming } true
    (by decide) (by decide) (by decide)
  have h2 := C6_stream_end_resolution
    { INITIAL_STATE with lifecycle := .streaming } false
    (by decide) (by decide) (by decide)
  exact ⟨(h1.2.1 (by decide)).imp id (fun hh => by simpa using hh),
    (h2.2.1 (by decide)).imp id (fun hh => by simpa using hh)⟩

/-- C7 counterexample: after `start()` is called a second time
(trace `startNew; fetchResolves 0; startNew`), the first run is
superseded (token 1 vs current token 2) and still streaming; its abort
handler then writes `lifecycle := canceled` into the new run's session
state — a state write from a superseded run that the request token does
not prevent. -/
theorem C7_superseded_write_counterexample :
    ((runTrace [.startNew, .fetchResolves 0, .startNew]).runs.get? 0).map
        RunState.id = some 1 ∧
    (runTrace [.startNew, .fetchResolves 0, .startNew]).currentToken = 2 ∧
    (step (runTrace [.startNew, .fetchResolves 0, .startNew])
          (.abortRejects 0)).sess ≠
      (runTrace [.startNew, .fetchResolves 0, .startNew]).sess ∧
    (step (runTrace [.startNew, .fetchResolves 0, .startNew])
        (.abortRejects 0)).sess.lifecycle = .canceled := by
  decide

/-- C7 (amended): the request token invalidates exactly the post-fetch
resume point.  A superseded run whose fetch resolves performs no session
write there — it is sent straight to `done` — and a `done` run never
writes again; but a superseded run already past that check (streaming),
or one whose awaited operation rejects after abort, can still write into
the new run's state (frame writes, the end-of-stream reducer, and the
abort handler's `canceled` write) until the abort takes effect. -/
theorem C7_token_guard_scope (c : HookConfig) (i : Nat) (r : RunState)
    (hr : c.runs.get? i = some r) (hpc : r.pc = .awaitingFetch)
    (htok : r.id ≠ c.currentToken) :
    ((step c (.fetchResolves i)).sess = c.sess ∧
      (step c (.fetchResolves i)).runs.get? i = some { r with pc := .done }) ∧
    (∀ (c2 : HookConfig) (r2 : RunState) (j : Nat) (a : HookAction),
      c2.runs.get? j = some r2 → r2.pc = .done → actionRunIdx a = some j →
      step c2 a = c2) := by
  constructor
  · have hguard : step c (.fetchResolves i) =
        { c with runs := c.runs.set i { r with pc := .done } } := by
      unfold step
      dsimp only
      rw [hr]
      dsimp only
      rw [if_pos hpc, if_pos htok]
    rw [hguard]
    refine ⟨rfl, ?_⟩
    have hi : i < c.runs.length := by
      by_contra hge
      push_neg at hge
      rw [List.get?_eq_none.mpr hge] at hr
      exact Option.noConfusion hr
    simp [List.get?_eq_getElem?, List.getElem?_set_eq_of_lt _ hi]
  · intro c2 r2 j a hr2 hpc2 hact
    cases a with
    | startNew => exact absurd hact (by simp [actionRunIdx])
    | fetchResolves k =>
      have hk : k = j := by simpa [actionRunIdx] using hact
      subst hk
      unfold step
      dsimp only
      rw [hr2]
      dsimp only
      rw [if_neg (by rw [hpc2]; exact fun hh => RunPC.noConfusion hh)]
    | deliverEvent k e =>
      have hk : k = j := by simpa [actionRunIdx] using hact
      subst hk
      unfold step
      dsimp only
      rw [hr2]
      dsimp only
      rw [if_neg (by rw [hpc2]; exact fun hh => RunPC.noConfusion hh)]
    | deliverDone k =>
      have hk : k = j := by simpa [actionRunIdx] using hact
      subst hk
      unfold step
      dsimp only
      rw [hr2]
      dsimp only
      rw [if_neg (by rw [hpc2]; exact fun hh => RunPC.noConfusion hh)]
    | streamEnds k =>
      have hk : k = j := by simpa [actionRunIdx] using hact
      subst hk
      unfold step
      dsimp only
      rw [hr2]
      dsimp only
      rw [if_neg (by rw [hpc2]; exact fun hh => RunPC.noConfusion hh)]
    | abortRejects k =>
      have hk : k = j := by simpa [actionRunIdx] using hact
      subst hk
      unfold step
      dsimp only
      rw [hr2]
      dsimp only
      rw [if_neg (by
        rw [hpc2]
        rintro ⟨hh | hh, _⟩ <;> exact RunPC.noConfusion hh)]

/-- Witness for `C7_token_guard_scope`: after two immediate `start()`
calls the first run still awaits its fetch with the stale token 1; when
that fetch resolves the guard sends it to `done` without touching the
session state. -/
theorem C7_token_guard_witness :
    ((step (runTrace [.startNew, .startNew]) (.fetchResolves 0)).sess =
        (runTrace [.startNew, .startNew]).sess ∧
      (step (runTrace [.startNew, .startNew]) (.fetchResolves 0)).runs.get? 0 =
        some { id := 1, pc := .done, aborted := true, receivedDone := false }) ∧
    (∀ (c2 : HookConfig) (r2 : RunState) (j : Nat) (a : HookAction),
      c2.runs.get? j = some r2 → r2.pc = .done → actionRunIdx a = some j →
      step c2 a = c2) :=
  C7_token_guard_scope (runTrace [.startNew, .startNew]) 0
    { id := 1, pc := .awaitingFetch, aborted := true, receivedDone := false }
    (by decide) (by decide) (by decide)

theorem take_append_take {α : Type} (A B : List α) (n : Nat) :
    (A ++ B.take n).take n = (A ++ B).take n := by
  rw [List.take_append_eq_append_take, List.take_append_eq_append_take,
    List.take_take]
  congr 1
  rw [Nat.min_eq_left (Nat.sub_le n A.length)]

theorem foldl_checkpointCreateStep (creations : List SandboxCheckpoint) :
    ∀ init : List SandboxCheckpoint, init.length ≤ MAX_CHECKPOINTS →
      creations.foldl checkpointCreateStep init =
        (creations.reverse ++ init).take MAX_CHECKPOINTS := by
  induction creations with
  | nil =>
    intro init hinit
    simp [List.take_of_length_le hinit]
  | cons c rest ih =>
    intro init hinit
    show rest.foldl checkpointCreateStep ((c :: init).take MAX_CHECKPOINTS) = _
    rw [ih ((c :: init).take MAX_CHECKPOINTS)
      (by simp)]
    rw [take_append_take]
    simp

/-- C8: a sequence of checkpoint creations always leaves the most-recent
checkpoints first — the stored list equals the reversed creation order
truncated to 8 — so it never exceeds 8 entries, and after more than 8
creations exactly the 8 most recent remain (the oldest evicted first);
persisting and loading also clamp to at most 8 entries. -/
theorem C8_checkpoint_cap :
    (∀ creations : List SandboxCheckpoint,
        applyCheckpointCreations creations =
          creations.reverse.take MAX_CHECKPOINTS) ∧
    (∀ creations : List SandboxCheckpoint,
        (applyCheckpointCreations creations).length ≤ MAX_CHECKPOINTS) ∧
    (∀ creations : List SandboxCheckpoint,
        MAX_CHECKPOINTS < creations.length →
        (applyCheckpointCreations creations).length = MAX_CHECKPOINTS) ∧
    (∀ checkpoints : List SandboxCheckpoint,
        (persistClamp checkpoints).length ≤ MAX_CHECKPOINTS) ∧
    (∀ (parsed : List SandboxCheckpoint) (isValid : SandboxCheckpoint → Bool),
        (loadClamp parsed isValid).length ≤ MAX_CHECKPOINTS) := by
  have hmain : ∀ creations : List SandboxCheckpoint,
      applyCheckpointCreations creations =
        creations.reverse.take MAX_CHECKPOINTS := by
    intro creations
    unfold applyCheckpointCreations
    rw [foldl_checkpointCreateStep creations [] (by simp)]
    simp
  refine ⟨hmain, ?_, ?_, ?_, ?_⟩
  · intro creations
    rw [hmain]
    simp
  · intro creations hlen
    rw [hmain]
    simp only [List.length_take, List.length_reverse]
    omega
  · intro checkpoints
    unfold persistClamp
    simp
  · intro parsed isValid
    unfold loadClamp
    simp

/-- Witness for `C8_checkpoint_cap` at nine concrete creations: the
ninth creation evicts the first checkpoint and leaves exactly the eight
most recent, most-recent-first. -/
theorem C8_checkpoint_cap_witness :
    applyCheckpointCreations
        ((List.range 9).map fun n =>
          { id := natStr n, label := [], createdAt := n, prompt := [],
            files := [], fileCount := 0, totalBytes := 0,
            truncated := false }) =
      ((List.range 9).map fun n =>
          { id := natStr n, label := [], createdAt := n, prompt := [],
            files := [], fileCount := 0, totalBytes := 0,
            truncated := false } : List SandboxCheckpoint).reverse.take
        MAX_CHECKPOINTS ∧
    (applyCheckpointCreations
        ((List.range 9).map fun n =>
          { id := natStr n, label := [], createdAt := n, prompt := [],
            files := [], fileCount := 0, totalBytes := 0,
            truncated := false })).length = MAX_CHECKPOINTS :=
  ⟨C8_checkpoint_cap.1 _,
   C8_checkpoint_cap.2.2.1 _ (by decide)⟩

end Lovable
